import Mathlib

/-!
Verification of the slash-command store (`slash_commands.rs`).

The development shallowly embeds the Rust module: strings are Lean `String`s
manipulated through character-list primitives that model the Rust `str`
operations used by the source, the file system is an explicit tree of
directory entries, and every fallible operation returns `Except`.
-/

/-! ## Character-list string primitives (models of Rust `str` operations) -/

/-- Model of Rust `str::split(sep)` on character lists: splits at every
occurrence of `sep`; always returns at least one (possibly empty) piece. -/
def chSplit (sep : Char) : List Char → List (List Char)
  | [] => [[]]
  | a :: as =>
    if a = sep then [] :: chSplit sep as
    else
      match chSplit sep as with
      | [] => [[a]]
      | p :: ps => (a :: p) :: ps

/-- Inverse of `chSplit`: join character lists with the separator. -/
def joinCh (sep : Char) : List (List Char) → List Char
  | [] => []
  | [x] => x
  | x :: xs => x ++ sep :: joinCh sep xs

theorem chSplit_ne_nil (sep : Char) (l : List Char) : chSplit sep l ≠ [] := by
  cases l with
  | nil => simp [chSplit]
  | cons a as =>
    simp only [chSplit]
    split
    · simp
    · split <;> simp_all

theorem chSplit_eq_single {sep : Char} {l : List Char} (h : sep ∉ l) :
    chSplit sep l = [l] := by
  induction l with
  | nil => rfl
  | cons a as ih =>
    simp only [List.mem_cons, not_or] at h
    simp only [chSplit]
    rw [if_neg (fun hc => h.1 hc.symm)]
    rw [ih h.2]

theorem chSplit_append_sep (sep : Char) (x y : List Char) :
    chSplit sep (x ++ sep :: y) = chSplit sep x ++ chSplit sep y := by
  induction x with
  | nil => simp [chSplit]
  | cons a as ih =>
    by_cases ha : a = sep
    · simp only [List.cons_append, chSplit, if_pos ha, List.append_eq, ih]
    · simp only [List.cons_append, chSplit, if_neg ha, List.append_eq]
      rw [ih]
      cases h : chSplit sep as with
      | nil => exact absurd h (chSplit_ne_nil sep as)
      | cons p ps => simp [h]

theorem joinCh_chSplit (sep : Char) (l : List Char) :
    joinCh sep (chSplit sep l) = l := by
  induction l with
  | nil => rfl
  | cons a as ih =>
    simp only [chSplit]
    by_cases ha : a = sep
    · rw [if_pos ha]
      cases h : chSplit sep as with
      | nil => exact absurd h (chSplit_ne_nil sep as)
      | cons p ps =>
        rw [h] at ih
        simp [joinCh, ih, ha]
    · rw [if_neg ha]
      cases h : chSplit sep as with
      | nil => exact absurd h (chSplit_ne_nil sep as)
      | cons p ps =>
        rw [h] at ih
        cases ps with
        | nil => simp_all [joinCh]
        | cons q qs => simp_all [joinCh]

theorem mem_chSplit_subset {sep : Char} {l : List Char} {p : List Char}
    (hp : p ∈ chSplit sep l) {c : Char} (hc : c ∈ p) : c ∈ l := by
  induction l generalizing p with
  | nil =>
    simp [chSplit] at hp
    subst hp
    simp at hc
  | cons a as ih =>
    simp only [chSplit] at hp
    split at hp
    · rcases List.mem_cons.mp hp with h | h
      · subst h; simp at hc
      · exact List.mem_cons_of_mem _ (ih h hc)
    · cases hsplit : chSplit sep as with
      | nil => exact absurd hsplit (chSplit_ne_nil sep as)
      | cons q qs =>
        rw [hsplit] at hp
        rcases List.mem_cons.mp hp with h | h
        · subst h
          rcases List.mem_cons.mp hc with h2 | h2
          · subst h2; exact List.mem_cons_self _ _
          · exact List.mem_cons_of_mem _ (ih (hsplit ▸ List.mem_cons_self _ _) h2)
        · exact List.mem_cons_of_mem _ (ih (hsplit ▸ List.mem_cons_of_mem _ h) hc)

/-! ## String-level helpers -/

/-- Model of Rust `str::split(sep)` at the `String` level. -/
def strSplit (sep : Char) (s : String) : List String :=
  (chSplit sep s.data).map String.mk

/-- Model of Rust `[str]::join` with a one-character separator. -/
def strJoinWith (sep : Char) (xs : List String) : String :=
  String.mk (joinCh sep (xs.map String.data))

/-- Model of Rust `str::starts_with`. -/
def strStartsWith (s pat : String) : Bool := pat.data.isPrefixOf s.data

/-- Model of Rust `str::contains` with a `char` pattern. -/
def strContainsChar (s : String) (c : Char) : Bool := s.data.contains c

/-- Model of Rust `str::contains` with a substring pattern. -/
def strContainsSub (s pat : String) : Bool := decide (pat.data <:+: s.data)

/-- Model of Rust `str::trim` on character lists. -/
def chTrim (l : List Char) : List Char :=
  (((l.dropWhile Char.isWhitespace).reverse).dropWhile Char.isWhitespace).reverse

/-- Model of Rust `str::trim`. -/
def strTrim (s : String) : String := String.mk (chTrim s.data)

/-- Drop the first `n` characters of a string. -/
def strDrop (s : String) (n : Nat) : String := String.mk (s.data.drop n)

/-- Model of Rust `str::replace` with `char` source pattern. -/
def strReplaceChar (s : String) (a b : Char) : String :=
  String.mk (s.data.map (fun c => if c = a then b else c))

/-- Model of Rust `Path::file_stem`-based `with_extension("")` on one file
name: everything before the last `.`, except that a name with no `.`, or a
leading-dot name with no other `.`, is kept whole. -/
def fileStem (s : String) : String :=
  match chSplit '.' s.data with
  | [] => s
  | [_] => s
  | [[], _] => s
  | parts => String.mk (joinCh '.' parts.dropLast)

/-- Model of Rust `Path::extension` on one file name. -/
def rustExtension (s : String) : Option String :=
  match chSplit '.' s.data with
  | [] => none
  | [_] => none
  | [[], _] => none
  | parts => parts.getLast?.map String.mk

/-- Strip one trailing carriage return, as Rust `str::lines` does per line. -/
def stripCR (l : List Char) : List Char :=
  if l.getLast? = some '\r' then l.dropLast else l

/-- Drop a final empty piece produced by a trailing newline. -/
def stripTrailingEmpty (ls : List (List Char)) : List (List Char) :=
  if ls.getLast? = some [] then ls.dropLast else ls

/-- Model of Rust `str::lines`: split on newlines, ignore one final trailing
newline, and strip a trailing carriage return from each line. -/
def rustLines (s : String) : List String :=
  if s.data = [] then []
  else ((stripTrailingEmpty (chSplit '\n' s.data)).map stripCR).map String.mk

/-- Join with newlines, the model of `lines.join("\n")`. -/
def strJoinNL (xs : List String) : String :=
  String.mk (joinCh '\n' (xs.map String.data))

/-- Render an absolute path from its components (Rust `to_string_lossy` on
the absolute `PathBuf`s this module builds). -/
def pathStr (p : List String) : String :=
  "/" ++ strJoinWith '/' p

/-- Recover path components from a rendered path string (Rust `Path::new`
on the strings stored in command records). -/
def pathOfString (s : String) : List String :=
  (strSplit '/' s).filter (fun c => c ≠ "")

/-- Model of Rust `Path::strip_prefix` on component lists. -/
def stripBase : List String → List String → Option (List String)
  | [], p => some p
  | _ :: _, [] => none
  | b :: bs, q :: qs => if q = b then stripBase bs qs else none

/-- Model of `relative_path.with_extension("").to_string_lossy()`: the
relative path's components joined with `/`, the extension of the last
component removed. -/
def withExtRemovedStr : List String → String
  | [] => ""
  | [n] => fileStem n
  | n :: rest => n ++ "/" ++ withExtRemovedStr rest

/-! ## File-system model

An explicit tree of named entries.  A `FS` is the entry list of the root
directory `/`; paths are component lists relative to that root. -/

inductive Entry where
  | file : String → String → Entry
  | dir : String → List Entry → Entry

abbrev FS := List Entry

def entryName : Entry → String
  | .file n _ => n
  | .dir n _ => n

def findEntry (es : List Entry) (n : String) : Option Entry :=
  es.find? (fun e => entryName e == n)

def lookupPath : List Entry → List String → Option Entry
  | _, [] => none
  | es, [n] => findEntry es n
  | es, n :: rest =>
    match findEntry es n with
    | some (.dir _ cs) => lookupPath cs rest
    | _ => none

/-- Model of `Path::exists` (the root `/` always exists). -/
def pathExists (es : FS) (p : List String) : Bool :=
  p.isEmpty || (lookupPath es p).isSome

/-- The entry list of the directory at `p`, when `p` is a directory
(model of a successful `read_dir`). -/
def childrenOf (es : FS) (p : List String) : Option (List Entry) :=
  match p with
  | [] => some es
  | _ =>
    match lookupPath es p with
    | some (.dir _ cs) => some cs
    | _ => none

/-- Model of `fs::read_to_string`. -/
def readFile (es : FS) (p : List String) : Option String :=
  match lookupPath es p with
  | some (.file _ c) => some c
  | _ => none

def isFile (es : FS) (p : List String) : Bool :=
  match lookupPath es p with
  | some (.file _ _) => true
  | _ => false

/-- Replace the first entry named `n`. -/
def replaceEntry : List Entry → String → Entry → List Entry
  | [], _, _ => []
  | e :: es, n, e' => if entryName e = n then e' :: es else e :: replaceEntry es n e'

/-- Remove the first entry named `n`. -/
def eraseEntry : List Entry → String → List Entry
  | [], _ => []
  | e :: es, n => if entryName e = n then es else e :: eraseEntry es n

/-- Model of `fs::write`: fails on an empty path, a directory target, or a
missing parent directory. -/
def writeFile : List Entry → List String → String → Option (List Entry)
  | _, [], _ => none
  | es, [n], c =>
    match findEntry es n with
    | some (.dir _ _) => none
    | some (.file _ _) => some (replaceEntry es n (.file n c))
    | none => some (es ++ [.file n c])
  | es, n :: rest, c =>
    match findEntry es n with
    | some (.dir _ cs) =>
      match writeFile cs rest c with
      | some cs' => some (replaceEntry es n (.dir n cs'))
      | none => none
    | _ => none

/-- Model of `fs::create_dir_all`: creates every missing directory on the
path, fails if a file is in the way. -/
def createDirAll : List Entry → List String → Option (List Entry)
  | es, [] => some es
  | es, n :: rest =>
    match findEntry es n with
    | some (.dir _ cs) =>
      match createDirAll cs rest with
      | some cs' => some (replaceEntry es n (.dir n cs'))
      | none => none
    | some (.file _ _) => none
    | none =>
      match createDirAll [] rest with
      | some cs' => some (es ++ [.dir n cs'])
      | none => none

/-- Model of `fs::remove_file`. -/
def removeFileFS : List Entry → List String → Option (List Entry)
  | _, [] => none
  | es, [n] =>
    match findEntry es n with
    | some (.file _ _) => some (eraseEntry es n)
    | _ => none
  | es, n :: rest =>
    match findEntry es n with
    | some (.dir _ cs) =>
      match removeFileFS cs rest with
      | some cs' => some (replaceEntry es n (.dir n cs'))
      | none => none
    | _ => none

/-- Model of `fs::remove_dir`: removes an empty directory; cannot remove
the root, a file, a non-empty directory, or a missing entry. -/
def removeDirFS : List Entry → List String → Option (List Entry)
  | _, [] => none
  | es, [n] =>
    match findEntry es n with
    | some (.dir _ []) => some (eraseEntry es n)
    | _ => none
  | es, n :: rest =>
    match findEntry es n with
    | some (.dir _ cs) =>
      match removeDirFS cs rest with
      | some cs' => some (replaceEntry es n (.dir n cs'))
      | none => none
    | _ => none

mutual
/-- Well-formedness of a file-system tree: sibling names are distinct. -/
def wfEntry : Entry → Bool
  | .file _ _ => true
  | .dir _ cs => wfList cs

def wfList : List Entry → Bool
  | [] => true
  | e :: es => es.all (fun e' => entryName e' != entryName e) && wfEntry e && wfList es
end

/-! ## The embedded program: scanning -/

mutual
/-- What `find_markdown_files` appends for a single directory entry whose
directory has absolute path `pre`: hidden entries are skipped, directories
are recursed into, files are kept when their extension is `md`. -/
def walkEntry (pre : List String) : Entry → List (List String)
  | .file n _ =>
    if strStartsWith n "." then []
    else if rustExtension n = some "md" then [pre ++ [n]] else []
  | .dir n cs =>
    if strStartsWith n "." then [] else walkEntries (pre ++ [n]) cs

/-- The recursive body of `find_markdown_files` over an entry list, in
`read_dir` order. -/
def walkEntries (pre : List String) : List Entry → List (List String)
  | [] => []
  | e :: es => walkEntry pre e ++ walkEntries pre es
end

/-- `find_markdown_files`: a missing root yields an empty result; a root
that exists but cannot be read as a directory propagates the `read_dir`
error; otherwise the recursive scan runs. -/
def find_markdown_files (es : FS) (dir : List String) :
    Except String (List (List String)) :=
  if pathExists es dir = false then .ok []
  else
    match childrenOf es dir with
    | some cs => .ok (walkEntries dir cs)
    | none => .error "read_dir failed"

/-! ## The embedded program: header parsing -/

/-- The `CommandFrontmatter` struct. -/
structure CommandFrontmatter where
  allowed_tools : Option (List String)
  description : Option String
deriving DecidableEq

/-- Modelled from the spec: the source delegates header parsing to an
external YAML library (`serde_yaml`), which is not part of this repository.
The spec describes the header as "a simple key-value/list structure
(recognized keys: a free-text description field, and a list of
permitted-tool identifiers under a hyphenated key name)".  This models that
deserializer on such documents: a `description:` line sets the description
to the trimmed rest of the line, an `allowed-tools:` line opens the tool
list, `- item` lines append to the open tool list (and are invalid when no
list is open), other `key: value` lines are ignored (unknown fields),
blank lines are skipped, and any other line makes the document fail to
deserialize. -/
def parseYamlLines : List String → Option (List String) → Option String →
    Except String CommandFrontmatter
  | [], tools, desc => .ok ⟨tools, desc⟩
  | l :: rest, tools, desc =>
    if strTrim l = "" then parseYamlLines rest tools desc
    else if strStartsWith l "description:" then
      let v := strTrim (strDrop l 12)
      parseYamlLines rest tools (if v = "" then none else some v)
    else if strTrim l = "allowed-tools:" then
      parseYamlLines rest (some []) desc
    else if strStartsWith (strTrim l) "- " then
      match tools with
      | some ts =>
        parseYamlLines rest (some (ts ++ [strTrim (strDrop (strTrim l) 2)])) desc
      | none => .error "invalid header"
    else if (chSplit ':' l.data).length ≥ 2 then parseYamlLines rest tools desc
    else .error "invalid header"

/-- Modelled from the spec: `serde_yaml::from_str::<CommandFrontmatter>`
applied to the joined header lines. -/
def parseFrontmatterYaml (s : String) : Except String CommandFrontmatter :=
  parseYamlLines (rustLines s) none none

/-- `parse_markdown_with_frontmatter`: split an optional `---`-delimited
header from the body; any failure falls back to the whole text as body. -/
def parse_markdown_with_frontmatter (content : String) :
    Except String (Option CommandFrontmatter × String) :=
  let lines := rustLines content
  if lines.head? ≠ some "---" then .ok (none, content)
  else
    match (lines.drop 1).findIdx? (fun l => l == "---") with
    | none => .ok (none, content)
    | some j =>
      let endIdx := j + 1
      let fmContent := strJoinNL ((lines.take endIdx).drop 1)
      let body := strJoinNL (lines.drop (endIdx + 1))
      match parseFrontmatterYaml fmContent with
      | .ok fm => .ok (some fm, body)
      | .error _ => .ok (none, content)

/-! ## The embedded program: records and single-file loading -/

/-- The command record.  The Rust field `namespace` is a reserved word in
Lean and is transcribed as `nspace`. -/
structure SlashCommand where
  id : String
  name : String
  full_command : String
  scope : String
  nspace : Option String
  file_path : String
  content : String
  description : Option String
  allowed_tools : List String
  has_bash_commands : Bool
  has_file_references : Bool
  accepts_arguments : Bool
deriving DecidableEq

/-- `extract_command_info`: derive (name, namespace) from the file path
relative to the scan root. -/
def extract_command_info (file_path base_path : List String) :
    Except String (String × Option String) :=
  match stripBase base_path file_path with
  | none => .error "Failed to get relative path"
  | some rel =>
    let path_without_ext := withExtRemovedStr rel
    let components := strSplit '/' path_without_ext
    if components = [] then .error "Invalid command path"
    else if components.length = 1 then .ok (components.headD "", none)
    else
      match components.getLast? with
      | none => .error "Invalid command path"
      | some last => .ok (last, some (strJoinWith ':' components.dropLast))

/-- `load_command_from_file`. -/
def load_command_from_file (es : FS) (file_path base_path : List String)
    (scope : String) : Except String SlashCommand :=
  match readFile es file_path with
  | none => .error "Failed to read command file"
  | some content =>
    match parse_markdown_with_frontmatter content with
    | .error e => .error e
    | .ok (frontmatter, body) =>
      match extract_command_info file_path base_path with
      | .error e => .error ("Failed to extract command info: " ++ e)
      | .ok (name, nspace) =>
        let full_command :=
          match nspace with
          | some ns => "/" ++ ns ++ ":" ++ name
          | none => "/" ++ name
        let id := scope ++ "-" ++ strReplaceChar (pathStr file_path) '/' '-'
        let has_bash_commands := strContainsSub body "!`"
        let has_file_references := strContainsChar body '@'
        let accepts_arguments := strContainsSub body "$ARGUMENTS"
        let meta :=
          match frontmatter with
          | some fm => (fm.description, fm.allowed_tools.getD [])
          | none => (none, [])
        .ok ⟨id, name, full_command, scope, nspace, pathStr file_path, body,
             meta.1, meta.2, has_bash_commands, has_file_references,
             accepts_arguments⟩

/-! ## The built-in command table (`create_default_commands`) -/

def create_default_commands : List SlashCommand := [
  ⟨"default-add-dir", "add-dir", "/add-dir", "default", none, "", "Add additional working directories", some "Add additional working directories to the current session", [], false, false, false⟩,
  ⟨"default-init", "init", "/init", "default", none, "", "Initialize project with CLAUDE.md guide", some "Initialize project with CLAUDE.md guide and setup files", [], false, false, false⟩,
  ⟨"default-review", "review", "/review", "default", none, "", "Request code review", some "Request a comprehensive code review of recent changes", [], false, false, false⟩,
  ⟨"default-commit", "commit", "/commit", "default", none, "", "Create a git commit", some "Create a git commit with staged changes and a descriptive message", [], false, false, false⟩,
  ⟨"default-review-pr", "review-pr", "/review-pr", "default", none, "", "Review a pull request", some "Review a GitHub pull request and provide feedback", [], false, false, true⟩,
  ⟨"default-pr", "pr", "/pr", "default", none, "", "Create a pull request", some "Create a GitHub pull request from the current branch", [], false, false, false⟩,
  ⟨"default-test", "test", "/test", "default", none, "", "Run tests", some "Run the project\x27s test suite and analyze results", [], false, false, false⟩,
  ⟨"default-fix", "fix", "/fix", "default", none, "", "Fix errors or issues", some "Analyze and fix errors, bugs, or issues in the code", [], false, false, false⟩,
  ⟨"default-debug", "debug", "/debug", "default", none, "", "Debug an issue", some "Help debug and diagnose issues in the code", [], false, false, false⟩,
  ⟨"default-explain", "explain", "/explain", "default", none, "", "Explain code or concepts", some "Explain how code works or clarify technical concepts", [], false, false, false⟩,
  ⟨"default-refactor", "refactor", "/refactor", "default", none, "", "Refactor code", some "Refactor code to improve structure, readability, or performance", [], false, false, false⟩,
  ⟨"default-optimize", "optimize", "/optimize", "default", none, "", "Optimize code performance", some "Optimize code for better performance and efficiency", [], false, false, false⟩,
  ⟨"default-docs", "docs", "/docs", "default", none, "", "Generate documentation", some "Generate or update code documentation and comments", [], false, false, false⟩,
  ⟨"default-security", "security", "/security", "default", none, "", "Security audit", some "Perform a security audit and identify vulnerabilities", [], false, false, false⟩,
  ⟨"default-remember", "remember", "/remember", "default", none, "", "Remember information", some "Store information for future reference in the session", [], false, false, true⟩,
  ⟨"default-model", "model", "/model", "default", none, "", "Switch AI model", some "Switch between different Claude AI models", [], false, false, false⟩,
  ⟨"default-clear", "clear", "/clear", "default", none, "", "Clear conversation", some "Clear the current conversation history", [], false, false, false⟩,
  ⟨"default-help", "help", "/help", "default", none, "", "Show help information", some "Display help information and available commands", [], false, false, false⟩,
  ⟨"default-usage", "usage", "/usage", "default", none, "", "Show usage statistics", some "Display API usage statistics and costs", [], false, false, false⟩,
  ⟨"default-settings", "settings", "/settings", "default", none, "", "Open settings", some "Open and manage Claude Code settings", [], false, false, false⟩,
  ⟨"default-agents", "agents", "/agents", "default", none, "", "Manage custom AI subagents", some "Manage custom AI subagents for specialized tasks", [], false, false, false⟩,
  ⟨"default-bashes", "bashes", "/bashes", "default", none, "", "List and manage background tasks", some "List and manage background bash tasks", [], false, false, false⟩,
  ⟨"default-bug", "bug", "/bug", "default", none, "", "Report bugs", some "Report bugs (sends conversation to Anthropic)", [], false, false, false⟩,
  ⟨"default-compact", "compact", "/compact", "default", none, "", "Compact conversation", some "Compact conversation with optional focus instructions", [], false, false, true⟩,
  ⟨"default-config", "config", "/config", "default", none, "", "Open settings interface", some "Open the Settings interface (Config tab). Type to search and filter settings", [], false, false, false⟩,
  ⟨"default-context", "context", "/context", "default", none, "", "Visualize context usage", some "Visualize current context usage as a colored grid", [], false, false, false⟩,
  ⟨"default-cost", "cost", "/cost", "default", none, "", "Show token usage statistics", some "Show token usage statistics and cost tracking", [], false, false, false⟩,
  ⟨"default-doctor", "doctor", "/doctor", "default", none, "", "Check installation health", some "Checks installation health and shows update information", [], false, false, false⟩,
  ⟨"default-exit", "exit", "/exit", "default", none, "", "Exit the REPL", some "Exit the Claude Code REPL interface", [], false, false, false⟩,
  ⟨"default-export", "export", "/export", "default", none, "", "Export conversation", some "Export the current conversation to a file or clipboard", [], false, false, true⟩,
  ⟨"default-hooks", "hooks", "/hooks", "default", none, "", "Manage hook configurations", some "Manage hook configurations for tool events", [], false, false, false⟩,
  ⟨"default-ide", "ide", "/ide", "default", none, "", "Manage IDE integrations", some "Manage IDE integrations and show status", [], false, false, false⟩,
  ⟨"default-install-github-app", "install-github-app", "/install-github-app", "default", none, "", "Set up Claude GitHub Actions", some "Set up Claude GitHub Actions for a repository", [], false, false, false⟩,
  ⟨"default-login", "login", "/login", "default", none, "", "Switch Anthropic accounts", some "Switch between different Anthropic accounts", [], false, false, false⟩,
  ⟨"default-logout", "logout", "/logout", "default", none, "", "Sign out from account", some "Sign out from your Anthropic account", [], false, false, false⟩,
  ⟨"default-mcp", "mcp", "/mcp", "default", none, "", "Manage MCP server connections", some "Manage MCP server connections and OAuth authentication", [], false, false, false⟩,
  ⟨"default-memory", "memory", "/memory", "default", none, "", "Edit CLAUDE.md memory files", some "Edit CLAUDE.md memory files for project context", [], false, false, false⟩,
  ⟨"default-output-style", "output-style", "/output-style", "default", none, "", "Set output style", some "Set the output style directly or from a selection menu", [], false, false, true⟩,
  ⟨"default-permissions", "permissions", "/permissions", "default", none, "", "View or update permissions", some "View or update tool and command permissions", [], false, false, false⟩,
  ⟨"default-plan", "plan", "/plan", "default", none, "", "Enter plan mode", some "Enter plan mode directly from the prompt", [], false, false, false⟩,
  ⟨"default-plugin", "plugin", "/plugin", "default", none, "", "Manage Claude Code plugins", some "Manage and configure Claude Code plugins", [], false, false, false⟩,
  ⟨"default-pr-comments", "pr-comments", "/pr-comments", "default", none, "", "View pull request comments", some "View and manage pull request comments", [], false, false, false⟩,
  ⟨"default-privacy-settings", "privacy-settings", "/privacy-settings", "default", none, "", "View and update privacy settings", some "View and update your privacy settings", [], false, false, false⟩,
  ⟨"default-release-notes", "release-notes", "/release-notes", "default", none, "", "View release notes", some "View Claude Code release notes and changelog", [], false, false, false⟩,
  ⟨"default-rename", "rename", "/rename", "default", none, "", "Rename current session", some "Rename the current session for easier identification", [], false, false, true⟩,
  ⟨"default-remote-env", "remote-env", "/remote-env", "default", none, "", "Configure remote session environment", some "Configure remote session environment (claude.ai subscribers)", [], false, false, false⟩,
  ⟨"default-resume", "resume", "/resume", "default", none, "", "Resume a conversation", some "Resume a conversation by ID or name, or open the session picker", [], false, false, true⟩,
  ⟨"default-rewind", "rewind", "/rewind", "default", none, "", "Rewind the conversation", some "Rewind the conversation and/or code to a previous state", [], false, false, false⟩,
  ⟨"default-sandbox", "sandbox", "/sandbox", "default", none, "", "Enable sandboxed bash tool", some "Enable sandboxed bash tool with filesystem and network isolation", [], false, false, false⟩,
  ⟨"default-security-review", "security-review", "/security-review", "default", none, "", "Complete security review", some "Complete a security review of pending changes on the current branch", [], false, false, false⟩,
  ⟨"default-stats", "stats", "/stats", "default", none, "", "Visualize usage statistics", some "Visualize daily usage, session history, streaks, and model preferences", [], false, false, false⟩,
  ⟨"default-status", "status", "/status", "default", none, "", "Open status interface", some "Open the Settings interface (Status tab) showing version, model, account, and connectivity", [], false, false, false⟩,
  ⟨"default-statusline", "statusline", "/statusline", "default", none, "", "Set up status line UI", some "Set up Claude Code\x27s status line UI configuration", [], false, false, false⟩,
  ⟨"default-teleport", "teleport", "/teleport", "default", none, "", "Resume remote session", some "Resume a remote session from claude.ai by session ID, or open a picker (claude.ai subscribers)", [], false, false, true⟩,
  ⟨"default-terminal-setup", "terminal-setup", "/terminal-setup", "default", none, "", "Install terminal key bindings", some "Install Shift+Enter key binding for newlines (VS Code, Alacritty, Zed, Warp)", [], false, false, false⟩,
  ⟨"default-theme", "theme", "/theme", "default", none, "", "Change color theme", some "Change the Claude Code color theme", [], false, false, false⟩,
  ⟨"default-todos", "todos", "/todos", "default", none, "", "List current TODO items", some "List and manage current TODO items in the session", [], false, false, false⟩,
  ⟨"default-vim", "vim", "/vim", "default", none, "", "Enter vim mode", some "Enter vim mode for alternating insert and command modes", [], false, false, false⟩
]

/-! ## The embedded program: the four operations -/

/-- `slash_commands_list`: built-ins, then project commands, then user
commands, each scan guarded by directory existence, per-file failures
skipped. -/
def slash_commands_list (es : FS) (project_path : Option (List String))
    (home : Option (List String)) : Except String (List SlashCommand) :=
  let commands := create_default_commands
  let commands :=
    match project_path with
    | some proj =>
      let project_commands_dir := proj ++ [".claude", "commands"]
      if pathExists es project_commands_dir then
        match find_markdown_files es project_commands_dir with
        | .error _ => commands
        | .ok md_files =>
          md_files.foldl (fun acc fp =>
            match load_command_from_file es fp project_commands_dir "project" with
            | .ok cmd => acc ++ [cmd]
            | .error _ => acc) commands
      else commands
    | none => commands
  let commands :=
    match home with
    | some home_dir =>
      let user_commands_dir := home_dir ++ [".claude", "commands"]
      if pathExists es user_commands_dir then
        match find_markdown_files es user_commands_dir with
        | .error _ => commands
        | .ok md_files =>
          md_files.foldl (fun acc fp =>
            match load_command_from_file es fp user_commands_dir "user" with
            | .ok cmd => acc ++ [cmd]
            | .error _ => acc) commands
      else commands
    | none => commands
  .ok commands

/-- `slash_command_get`: validate the identifier, then search the full
listing taken with no project context. -/
def slash_command_get (es : FS) (home : Option (List String))
    (command_id : String) : Except String SlashCommand :=
  let parts := strSplit '-' command_id
  if parts.length < 2 then .error "Invalid command ID"
  else
    match slash_commands_list es none home with
    | .error e => .error e
    | .ok commands =>
      match commands.find? (fun cmd => cmd.id == command_id) with
      | some cmd => .ok cmd
      | none => .error ("Command not found: " ++ command_id)

/-- The full file content serialized by the save operation: the optional
`---`-delimited header (emitted only when a description or tools are
present), a blank line, then the body. -/
def savedContent (description : Option String) (allowed_tools : List String)
    (content : String) : String :=
  (if description.isSome ∨ allowed_tools ≠ [] then
    "---\n" ++
    (match description with
     | some desc => "description: " ++ desc ++ "\n"
     | none => "") ++
    (if allowed_tools ≠ [] then
      "allowed-tools:\n" ++
        String.join (allowed_tools.map (fun tool => "  - " ++ tool ++ "\n"))
     else "") ++
    "---\n\n"
   else "") ++ content

/-- Resolution of the base commands directory by the save operation. -/
def resolveBaseDir (scope : String) (project_path home : Option (List String)) :
    Except String (List String) :=
  if scope = "project" then
    match project_path with
    | some proj => .ok (proj ++ [".claude", "commands"])
    | none => .error "Project path required for project scope"
  else
    match home with
    | some h => .ok (h ++ [".claude", "commands"])
    | none => .error "Could not find home directory"

/-- The namespace directory segments (`namespace.split(':')` when present). -/
def namespaceSegs (nspace : Option String) : List String :=
  match nspace with
  | some ns => strSplit ':' ns
  | none => []

/-- `slash_command_save`: validate, resolve the target directory, create
it, serialize the optional header plus body, write, and reload. -/
def slash_command_save (es : FS) (scope name : String)
    (nspace : Option String) (content : String) (description : Option String)
    (allowed_tools : List String) (project_path : Option (List String))
    (home : Option (List String)) : Except String SlashCommand × FS :=
  if name = "" then (.error "Command name cannot be empty", es)
  else if ¬ (scope = "project" ∨ scope = "user") then
    (.error "Invalid scope. Must be \x27project\x27 or \x27user\x27", es)
  else
    match resolveBaseDir scope project_path home with
    | .error e => (.error e, es)
    | .ok base_dir =>
      let dir_path := base_dir ++ namespaceSegs nspace
      match createDirAll es dir_path with
      | none => (.error "Failed to create directories", es)
      | some es1 =>
        let file_path := dir_path ++ [name ++ ".md"]
        let full_content := savedContent description allowed_tools content
        match writeFile es1 file_path full_content with
        | none => (.error "Failed to write command file", es1)
        | some es2 =>
          match load_command_from_file es2 file_path base_dir scope with
          | .ok cmd => (.ok cmd, es2)
          | .error e => (.error ("Failed to load saved command: " ++ e), es2)

/-- The upward walk of `remove_empty_dirs`, phrased over the reversed path
so that the step to the parent directory is structural. -/
def removeEmptyDirsRev : List String → FS → Except String Unit × FS
  | rev, es =>
    if pathExists es rev.reverse = false then (.ok (), es)
    else
      match childrenOf es rev.reverse with
      | none => (.error "read_dir failed", es)
      | some entries =>
        if entries.isEmpty then
          match removeDirFS es rev.reverse with
          | none => (.error "remove_dir failed", es)
          | some es1 =>
            match rev with
            | [] => (.ok (), es1)
            | _ :: rs =>
              let r := removeEmptyDirsRev rs es1
              (.ok (), r.2)
        else (.ok (), es)

/-- `remove_empty_dirs`: remove the directory if it is empty, then walk to
the parent; every failure leaves the state unchanged and is reported (the
callers discard it). -/
def remove_empty_dirs (es : FS) (dir : List String) :
    Except String Unit × FS :=
  removeEmptyDirsRev dir.reverse es

/-- `slash_command_delete`: find the record by identifier in a full listing,
delete its backing file, then best-effort clean up empty parents. -/
def slash_command_delete (es : FS) (command_id : String)
    (project_path : Option (List String)) (home : Option (List String)) :
    Except String String × FS :=
  let is_project_command := strStartsWith command_id "project-"
  if is_project_command && project_path.isNone then
    (.error "Project path required to delete project commands", es)
  else
    match slash_commands_list es project_path home with
    | .error e => (.error e, es)
    | .ok commands =>
      match commands.find? (fun cmd => cmd.id == command_id) with
      | none => (.error ("Command not found: " ++ command_id), es)
      | some command =>
        match removeFileFS es (pathOfString command.file_path) with
        | none => (.error "Failed to delete command file", es)
        | some es1 =>
          match pathOfString command.file_path with
          | [] => (.ok ("Deleted command: " ++ command.full_command), es1)
          | d :: ds =>
            let r := remove_empty_dirs es1 ((d :: ds).dropLast)
            (.ok ("Deleted command: " ++ command.full_command), r.2)

/-! ## Helper lemmas: strings -/

theorem string_data_inj {a b : String} (h : a.data = b.data) : a = b := by
  cases a; cases b; simp_all

theorem strSplit_ne_nil (sep : Char) (s : String) : strSplit sep s ≠ [] := by
  intro h
  exact chSplit_ne_nil sep s.data (List.map_eq_nil_iff.mp h)

theorem slash_data : "/".data = ['/'] := rfl

/-- Splitting a three-component slash-joined string with slash-free
components recovers the components. -/
theorem strSplit_three {a b c : String} (ha : '/' ∉ a.data) (hb : '/' ∉ b.data)
    (hc : '/' ∉ c.data) :
    strSplit '/' (a ++ "/" ++ (b ++ "/" ++ c)) = [a, b, c] := by
  have hdata : (a ++ "/" ++ (b ++ "/" ++ c)).data
      = a.data ++ '/' :: (b.data ++ '/' :: c.data) := by
    simp [String.data_append, slash_data]
  unfold strSplit
  rw [hdata, chSplit_append_sep, chSplit_eq_single ha, chSplit_append_sep,
    chSplit_eq_single hb, chSplit_eq_single hc]
  rfl

/-- Selecting the final arm of `fileStem`: at least two pieces, and not the
two-piece leading-dot shape. -/
theorem fileStem_rule {s : String} {p1 p2 : List Char} {rest : List (List Char)}
    (h : chSplit '.' s.data = p1 :: p2 :: rest) (hne : p1 = [] → rest ≠ []) :
    fileStem s = String.mk (joinCh '.' ((p1 :: p2 :: rest).dropLast)) := by
  unfold fileStem
  rw [h]
  cases rest with
  | nil =>
    cases p1 with
    | nil => exact absurd rfl (hne rfl)
    | cons x xs => rfl
  | cons r rs =>
    cases p1 with
    | nil => rfl
    | cons x xs => rfl

/-- The file stem of `c ++ ".md"` is `c`, for nonempty `c`. -/
theorem fileStem_append_md {c : String} (hc : c ≠ "") :
    fileStem (c ++ ".md") = c := by
  have hcd : c.data ≠ [] := fun h => hc (string_data_inj h)
  have hdata : (c ++ ".md").data = c.data ++ '.' :: ['m', 'd'] := by
    rw [String.data_append]
  have hsplit : chSplit '.' (c ++ ".md").data
      = chSplit '.' c.data ++ [['m', 'd']] := by
    rw [hdata, chSplit_append_sep]
    have hmd : chSplit '.' ['m', 'd'] = [['m', 'd']] := by decide
    rw [hmd]
  have hjoin := joinCh_chSplit '.' c.data
  cases h : chSplit '.' c.data with
  | nil => exact absurd h (chSplit_ne_nil '.' c.data)
  | cons p ps =>
    rw [h] at hjoin
    cases ps with
    | nil =>
      have hp : p = c.data := by simpa [joinCh] using hjoin
      have hrule := @fileStem_rule (c ++ ".md") p ['m', 'd'] []
        (by rw [hsplit, h]; rfl) (fun h0 _ => hcd (hp.symm.trans h0))
      rw [hrule]
      have : ([p, ['m', 'd']] : List (List Char)).dropLast = [p] := rfl
      rw [this]
      exact string_data_inj (by simpa [joinCh] using hp)
    | cons q qs =>
      have hshape : chSplit '.' (c ++ ".md").data
          = p :: q :: (qs ++ [['m', 'd']]) := by
        rw [hsplit, h]; simp
      have hrule := fileStem_rule hshape
        (fun _ hq => by simp at hq)
      rw [hrule]
      have hdl : (p :: q :: (qs ++ [['m', 'd']])).dropLast = p :: q :: qs := by
        have : p :: q :: (qs ++ [['m', 'd']]) = (p :: q :: qs) ++ [['m', 'd']] := by
          simp
        rw [this, List.dropLast_concat]
      rw [hdl, hjoin]

/-! ## Helper lemmas: path derivation and loading -/

theorem stripBase_append (b r : List String) : stripBase b (b ++ r) = some r := by
  induction b with
  | nil => rfl
  | cons x xs ih => simp [stripBase, ih]

/-- Whenever the file path lies under the scan root, `extract_command_info`
returns a name (the split always has at least one component). -/
theorem extract_ok_of_under_root {file base rel : List String}
    (h : stripBase base file = some rel) :
    ∃ nm ns, extract_command_info file base = .ok (nm, ns) := by
  simp only [extract_command_info, h]
  have hne : strSplit '/' (withExtRemovedStr rel) ≠ [] := strSplit_ne_nil _ _
  rw [if_neg hne]
  by_cases hl : (strSplit '/' (withExtRemovedStr rel)).length = 1
  · rw [if_pos hl]
    exact ⟨_, _, rfl⟩
  · rw [if_neg hl]
    cases hLast : (strSplit '/' (withExtRemovedStr rel)).getLast? with
    | none => exact absurd (List.getLast?_eq_none_iff.mp hLast) hne
    | some last => exact ⟨_, _, rfl⟩

/-- `extract_command_info` on a depth-three relative path `a/b/(c ++ ".md")`
with slash-free components. -/
theorem extract_three {root : List String} {a b c : String}
    (ha : '/' ∉ a.data) (hb : '/' ∉ b.data) (hc : '/' ∉ c.data) (hcne : c ≠ "") :
    extract_command_info (root ++ [a, b, c ++ ".md"]) root
      = .ok (c, some (a ++ ":" ++ b)) := by
  simp only [extract_command_info, stripBase_append]
  have hext : withExtRemovedStr [a, b, c ++ ".md"]
      = a ++ "/" ++ (b ++ "/" ++ c) := by
    show a ++ "/" ++ withExtRemovedStr [b, c ++ ".md"] = _
    show a ++ "/" ++ (b ++ "/" ++ withExtRemovedStr [c ++ ".md"]) = _
    rw [show withExtRemovedStr [c ++ ".md"] = fileStem (c ++ ".md") from rfl,
      fileStem_append_md hcne]
  rw [hext, strSplit_three ha hb hc]
  have hjoin : strJoinWith ':' [a, b] = a ++ ":" ++ b := by
    apply string_data_inj
    simp [strJoinWith, joinCh, String.data_append]
  simp [hjoin]

/-- `extract_command_info` on a depth-one relative path `x ++ ".md"`. -/
theorem extract_one {root : List String} {x : String}
    (hx : '/' ∉ x.data) (hxne : x ≠ "") :
    extract_command_info (root ++ [x ++ ".md"]) root = .ok (x, none) := by
  simp only [extract_command_info, stripBase_append]
  have hext : withExtRemovedStr [x ++ ".md"] = x := fileStem_append_md hxne
  rw [hext]
  have hsplit : strSplit '/' x = [x] := by
    unfold strSplit
    rw [chSplit_eq_single hx]
    rfl
  rw [hsplit]
  simp

/-- `parse_markdown_with_frontmatter` never returns an error. -/
theorem parse_markdown_ok (content : String) :
    ∃ r, parse_markdown_with_frontmatter content = .ok r := by
  simp only [parse_markdown_with_frontmatter]
  split
  · exact ⟨_, rfl⟩
  · split
    · exact ⟨_, rfl⟩
    · split
      · exact ⟨_, rfl⟩
      · exact ⟨_, rfl⟩

/-- Computation rule for `load_command_from_file` once the three inner steps
are known. -/
theorem load_eq {es : FS} {fp base : List String} {scope content : String}
    {fm : Option CommandFrontmatter} {body : String} {nm : String}
    {ns : Option String}
    (h1 : readFile es fp = some content)
    (h2 : parse_markdown_with_frontmatter content = .ok (fm, body))
    (h3 : extract_command_info fp base = .ok (nm, ns)) :
    load_command_from_file es fp base scope =
      .ok ⟨scope ++ "-" ++ strReplaceChar (pathStr fp) '/' '-', nm,
        (match ns with
         | some s => "/" ++ s ++ ":" ++ nm
         | none => "/" ++ nm), scope, ns, pathStr fp, body,
        fm.bind CommandFrontmatter.description,
        (fm.bind CommandFrontmatter.allowed_tools).getD [],
        strContainsSub body "!`", strContainsChar body '@',
        strContainsSub body "$ARGUMENTS"⟩ := by
  simp only [load_command_from_file, h1, h2, h3]
  cases fm <;> cases ns <;> rfl

theorem load_ok_scope {es : FS} {fp base : List String} {scope : String}
    {cmd : SlashCommand}
    (h : load_command_from_file es fp base scope = .ok cmd) :
    cmd.scope = scope := by
  unfold load_command_from_file at h
  cases h1 : readFile es fp with
  | none => simp [h1] at h
  | some content =>
    simp only [h1] at h
    cases h2 : parse_markdown_with_frontmatter content with
    | error e => simp [h2] at h
    | ok fmb =>
      obtain ⟨fm, body⟩ := fmb
      simp only [h2] at h
      cases h3 : extract_command_info fp base with
      | error e => simp [h3] at h
      | ok nmns =>
        obtain ⟨nm, ns⟩ := nmns
        simp only [h3] at h
        cases h
        rfl

deriving instance DecidableEq for Except

/-! ## Claim C10 -/

/-- C10: in `extract_command_info`, the zero-segments "Invalid command
path" error branch is unreachable: splitting on the path separator always
yields at least one component, so whenever the file path is under the scan
root the deriver returns a name (with or without namespace) and never that
error. -/
theorem c10_zero_segments_unreachable :
    (∀ s : String, 1 ≤ (strSplit '/' s).length) ∧
    (∀ file base rel : List String, stripBase base file = some rel →
      ∃ nm ns, extract_command_info file base = .ok (nm, ns)) := by
  constructor
  · intro s
    cases h : strSplit '/' s with
    | nil => exact absurd h (strSplit_ne_nil '/' s)
    | cons a as => simp
  · intro file base rel h
    exact extract_ok_of_under_root h

theorem c10_witness :
    stripBase ["r"] ["r", "x.md"] = some ["x.md"] ∧
    ∃ nm ns, extract_command_info ["r", "x.md"] ["r"] = .ok (nm, ns) :=
  ⟨by decide, c10_zero_segments_unreachable.2 ["r", "x.md"] ["r"] ["x.md"] (by decide)⟩

/-! ## Claim C4 -/

/-- C4: loading `<root>/a/b/c.md` against scan root `<root>` derives name
`c`, namespace `a:b` and invocation `/a:b:c`; loading `<root>/x.md` derives
no namespace and invocation `/x`. -/
theorem c4_name_namespace_invocation :
    (∀ (es : FS) (root : List String) (a b c body scope : String),
      '/' ∉ a.data → '/' ∉ b.data → '/' ∉ c.data → c ≠ "" →
      readFile es (root ++ [a, b, c ++ ".md"]) = some body →
      ∃ cmd, load_command_from_file es (root ++ [a, b, c ++ ".md"]) root scope
          = .ok cmd ∧
        cmd.name = c ∧ cmd.nspace = some (a ++ ":" ++ b) ∧
        cmd.full_command = "/" ++ a ++ ":" ++ b ++ ":" ++ c) ∧
    (∀ (es : FS) (root : List String) (x body scope : String),
      '/' ∉ x.data → x ≠ "" →
      readFile es (root ++ [x ++ ".md"]) = some body →
      ∃ cmd, load_command_from_file es (root ++ [x ++ ".md"]) root scope
          = .ok cmd ∧
        cmd.name = x ∧ cmd.nspace = none ∧ cmd.full_command = "/" ++ x) := by
  constructor
  · intro es root a b c body scope ha hb hc hcne hread
    obtain ⟨⟨fm, b2⟩, hp⟩ := parse_markdown_ok body
    refine ⟨_, load_eq hread hp (extract_three ha hb hc hcne), rfl, rfl, ?_⟩
    show "/" ++ (a ++ ":" ++ b) ++ ":" ++ c = "/" ++ a ++ ":" ++ b ++ ":" ++ c
    apply string_data_inj
    simp [String.data_append]
  · intro es root x body scope hx hxne hread
    obtain ⟨⟨fm, b2⟩, hp⟩ := parse_markdown_ok body
    exact ⟨_, load_eq hread hp (extract_one hx hxne), rfl, rfl, rfl⟩

theorem c4_witness :
    (∃ cmd, load_command_from_file [.dir "a" [.dir "b" [.file "c.md" "hi"]]]
        ["a", "b", "c.md"] [] "project" = .ok cmd ∧
      cmd.name = "c" ∧ cmd.nspace = some ("a" ++ ":" ++ "b") ∧
      cmd.full_command = "/" ++ "a" ++ ":" ++ "b" ++ ":" ++ "c") ∧
    (∃ cmd, load_command_from_file [.file "x.md" "hi"] ["x.md"] [] "user"
        = .ok cmd ∧
      cmd.name = "x" ∧ cmd.nspace = none ∧ cmd.full_command = "/" ++ "x") :=
  ⟨c4_name_namespace_invocation.1 [.dir "a" [.dir "b" [.file "c.md" "hi"]]]
      [] "a" "b" "c" "hi" "project" (by decide) (by decide) (by decide)
      (by decide) (by decide),
    c4_name_namespace_invocation.2 [.file "x.md" "hi"] [] "x" "hi" "user"
      (by decide) (by decide) (by decide)⟩

/-! ## Claim C5 -/

/-- C5: whenever the text does not start with the delimiter line, or no
closing delimiter is found, or the delimited header block fails to parse,
the header/body splitter returns the entire original text as body with no
header extracted, and does not return an error. -/
theorem c5_whole_text_fallback :
    ∀ content : String,
      ((rustLines content).head? ≠ some "---" ∨
       ((rustLines content).drop 1).findIdx? (fun l => l == "---") = none ∨
       (∃ j, ((rustLines content).drop 1).findIdx? (fun l => l == "---")
            = some j ∧
         ∃ e, parseFrontmatterYaml
            (strJoinNL (((rustLines content).take (j + 1)).drop 1))
            = .error e)) →
      parse_markdown_with_frontmatter content = .ok (none, content) := by
  intro content h
  simp only [parse_markdown_with_frontmatter]
  by_cases h0 : (rustLines content).head? ≠ some "---"
  · rw [if_pos h0]
  · rw [if_neg h0]
    rcases h with h1 | h2 | ⟨j, hj, e, he⟩
    · exact absurd h1 h0
    · rw [h2]
    · simp only [hj, he]

theorem c5_witness :
    (∃ j, ((rustLines "---\nfoo\n---\nbody").drop 1).findIdx?
        (fun l => l == "---") = some j ∧
      ∃ e, parseFrontmatterYaml
        (strJoinNL (((rustLines "---\nfoo\n---\nbody").take (j + 1)).drop 1))
        = .error e) ∧
    parse_markdown_with_frontmatter "---\nfoo\n---\nbody"
      = .ok (none, "---\nfoo\n---\nbody") :=
  ⟨⟨1, by decide, "invalid header", by decide⟩,
    c5_whole_text_fallback "---\nfoo\n---\nbody"
      (Or.inr (Or.inr ⟨1, by decide, "invalid header", by decide⟩))⟩

/-! ## Claims C6 and C8: the list operation -/

/-- Specification-side description of one scan: the commands successfully
loaded from one scan root, in directory-walk order (empty when the root
does not exist or cannot be read). -/
def scannedCommands (es : FS) (dir : List String) (scope : String) :
    List SlashCommand :=
  if pathExists es dir then
    match find_markdown_files es dir with
    | .ok md_files =>
      md_files.filterMap
        (fun fp => (load_command_from_file es fp dir scope).toOption)
    | .error _ => []
  else []

theorem foldl_load_push (es : FS) (base : List String) (scope : String)
    (files : List (List String)) (init : List SlashCommand) :
    files.foldl (fun acc fp =>
      match load_command_from_file es fp base scope with
      | .ok cmd => acc ++ [cmd]
      | .error _ => acc) init
    = init ++ files.filterMap
        (fun fp => (load_command_from_file es fp base scope).toOption) := by
  induction files generalizing init with
  | nil => simp
  | cons f fs ih =>
    simp only [List.foldl_cons, List.filterMap_cons]
    cases h : load_command_from_file es f base scope with
    | ok cmd => simp [h, ih, Except.toOption]
    | error e => simp [h, ih, Except.toOption]

theorem scan_block (es : FS) (dir : List String) (scope : String)
    (init : List SlashCommand) :
    (if pathExists es dir then
      match find_markdown_files es dir with
      | .error _ => init
      | .ok md_files =>
        md_files.foldl (fun acc fp =>
          match load_command_from_file es fp dir scope with
          | .ok cmd => acc ++ [cmd]
          | .error _ => acc) init
     else init)
    = init ++ scannedCommands es dir scope := by
  unfold scannedCommands
  by_cases hex : pathExists es dir
  · simp only [hex, if_true]
    cases hfind : find_markdown_files es dir with
    | ok md => simp [foldl_load_push]
    | error e => simp
  · simp [hex]

theorem slash_commands_list_eq (es : FS) (pp hm : Option (List String)) :
    slash_commands_list es pp hm
      = .ok (create_default_commands
          ++ (match pp with
              | some proj =>
                scannedCommands es (proj ++ [".claude", "commands"]) "project"
              | none => [])
          ++ (match hm with
              | some home_dir =>
                scannedCommands es (home_dir ++ [".claude", "commands"]) "user"
              | none => [])) := by
  unfold slash_commands_list
  cases pp <;> cases hm <;>
    simp only [scan_block, List.append_nil, List.append_assoc]

/-- C6: the list operation returns exactly the built-in records first (in
table order), then the successfully-loaded project commands (in walk order,
only when a project path is supplied and its commands directory exists),
then the successfully-loaded user commands (in walk order, from the user
commands directory when it exists), concatenated without sorting or
deduplication. -/
theorem c6_list_order (es : FS) (pp hm : Option (List String)) :
    slash_commands_list es pp hm
      = .ok (create_default_commands
          ++ (match pp with
              | some proj =>
                scannedCommands es (proj ++ [".claude", "commands"]) "project"
              | none => [])
          ++ (match hm with
              | some home_dir =>
                scannedCommands es (home_dir ++ [".claude", "commands"]) "user"
              | none => [])) :=
  slash_commands_list_eq es pp hm

/-- C8: the list operation always returns `Ok`, for every file-system
state and every choice of project path: scan and per-file failures are
swallowed. -/
theorem c8_list_total (es : FS) (pp hm : Option (List String)) :
    ∃ cmds, slash_commands_list es pp hm = .ok cmds :=
  ⟨_, slash_commands_list_eq es pp hm⟩

/-! ## Claim C3: the get operation -/

theorem defaults_scope : ∀ c ∈ create_default_commands, c.scope = "default" := by
  intro c hc
  have hall : create_default_commands.all (fun c => c.scope == "default") = true := by
    decide
  simpa using List.all_eq_true.mp hall c hc

theorem mem_scanned_scope {es : FS} {dir : List String} {scope : String}
    {c : SlashCommand} (h : c ∈ scannedCommands es dir scope) :
    c.scope = scope := by
  unfold scannedCommands at h
  split at h
  · split at h
    · obtain ⟨fp, _, hload⟩ := List.mem_filterMap.mp h
      cases hl : load_command_from_file es fp dir scope with
      | ok cmd =>
        rw [hl] at hload
        simp only [Except.toOption, Option.some.injEq] at hload
        subst hload
        exact load_ok_scope hl
      | error e =>
        rw [hl] at hload
        simp [Except.toOption] at hload
    · simp at h
  · simp at h

/-- C3: `slash_command_get` fails with "Invalid command ID" exactly when the
identifier has fewer than two separator-delimited segments (no `-` in it);
otherwise it performs a full list with no project context and returns the
matching record or a "not found" error; hence a record it returns is never
project-scoped. -/
theorem c3_get_contract (es : FS) (hm : Option (List String)) (id : String) :
    ((strSplit '-' id).length < 2 →
      slash_command_get es hm id = .error "Invalid command ID") ∧
    (¬ (strSplit '-' id).length < 2 →
      ∃ cmds, slash_commands_list es none hm = .ok cmds ∧
        slash_command_get es hm id =
          (match cmds.find? (fun cmd => cmd.id == id) with
           | some cmd => .ok cmd
           | none => .error ("Command not found: " ++ id))) ∧
    (∀ cmd, slash_command_get es hm id = .ok cmd → cmd.scope ≠ "project") := by
  refine ⟨?_, ?_, ?_⟩
  · intro hlen
    unfold slash_command_get
    rw [if_pos hlen]
  · intro hlen
    refine ⟨_, slash_commands_list_eq es none hm, ?_⟩
    unfold slash_command_get
    rw [if_neg hlen]
    simp only [slash_commands_list_eq]
  · intro cmd hget
    unfold slash_command_get at hget
    by_cases hlen : (strSplit '-' id).length < 2
    · rw [if_pos hlen] at hget
      exact absurd hget (by simp)
    · rw [if_neg hlen] at hget
      cases hm with
      | none =>
        simp only [slash_commands_list_eq, List.append_nil] at hget
        cases hfind : create_default_commands.find? (fun c => c.id == id) with
        | none => rw [hfind] at hget; exact absurd hget (by simp)
        | some c' =>
          rw [hfind] at hget
          have hc : c' = cmd := by simpa using hget
          subst hc
          rw [defaults_scope c' (List.mem_of_find?_eq_some hfind)]
          decide
      | some home_dir =>
        simp only [slash_commands_list_eq, List.append_nil] at hget
        cases hfind : (create_default_commands
            ++ scannedCommands es (home_dir ++ [".claude", "commands"]) "user").find?
            (fun c => c.id == id) with
        | none => rw [hfind] at hget; exact absurd hget (by simp)
        | some c' =>
          rw [hfind] at hget
          have hc : c' = cmd := by simpa using hget
          subst hc
          rcases List.mem_append.mp (List.mem_of_find?_eq_some hfind) with hd | hu
          · rw [defaults_scope c' hd]
            decide
          · rw [mem_scanned_scope hu]
            decide

theorem c3_witness :
    ((strSplit '-' "nodash").length < 2 ∧
      slash_command_get [] none "nodash" = .error "Invalid command ID") ∧
    (¬ (strSplit '-' "default-init").length < 2 ∧
      ∃ cmds, slash_commands_list [] none none = .ok cmds ∧
        slash_command_get [] none "default-init" =
          (match cmds.find? (fun cmd => cmd.id == "default-init") with
           | some cmd => .ok cmd
           | none => .error ("Command not found: " ++ "default-init"))) :=
  ⟨⟨by decide, (c3_get_contract [] none "nodash").1 (by decide)⟩,
    ⟨by decide, (c3_get_contract [] none "default-init").2.1 (by decide)⟩⟩

/-! ## Claim C9: deleting a built-in command -/

/-- C9: for every built-in command identifier, the delete operation fails
(removing the empty-string backing path fails) and leaves the file system
unchanged, for every file-system state, project path and home directory. -/
theorem c9_delete_builtin (es : FS) (pp hm : Option (List String))
    (c : SlashCommand) (hc : c ∈ create_default_commands) :
    (slash_command_delete es c.id pp hm).1
        = .error "Failed to delete command file" ∧
    (slash_command_delete es c.id pp hm).2 = es := by
  have hnp : strStartsWith c.id "project-" = false := by
    have hall : create_default_commands.all
        (fun x => !(strStartsWith x.id "project-")) = true := by decide
    simpa using List.all_eq_true.mp hall c hc
  have hfp : ∀ d ∈ create_default_commands, d.file_path = "" := by
    intro d hd
    have hall : create_default_commands.all
        (fun x => x.file_path == "") = true := by decide
    simpa using List.all_eq_true.mp hall d hd
  obtain ⟨d, hd⟩ : ∃ d, create_default_commands.find?
      (fun x => x.id == c.id) = some d :=
    Option.isSome_iff_exists.mp (List.find?_isSome.mpr ⟨c, hc, by simp⟩)
  have hdfp : d.file_path = "" := hfp d (List.mem_of_find?_eq_some hd)
  have hfind2 : ∀ X Y : List SlashCommand,
      ((create_default_commands ++ X) ++ Y).find? (fun x => x.id == c.id)
        = some d := by
    intro X Y
    rw [List.find?_append, List.find?_append, hd]
    rfl
  have hpof : pathOfString d.file_path = [] := by
    rw [hdfp]
    decide
  unfold slash_command_delete
  rw [hnp]
  simp only [Bool.false_and, Bool.false_eq_true, if_false,
    slash_commands_list_eq, hfind2, hpof]
  have hrm : removeFileFS es [] = none := rfl
  rw [hrm]
  exact ⟨rfl, rfl⟩

theorem c9_witness :
    (⟨"default-add-dir", "add-dir", "/add-dir", "default", none, "",
      "Add additional working directories",
      some "Add additional working directories to the current session",
      [], false, false, false⟩ : SlashCommand) ∈ create_default_commands ∧
    (slash_command_delete [] "default-add-dir" none none).1
        = .error "Failed to delete command file" ∧
    (slash_command_delete [] "default-add-dir" none none).2 = [] := by
  have hmem : (⟨"default-add-dir", "add-dir", "/add-dir", "default", none, "",
      "Add additional working directories",
      some "Add additional working directories to the current session",
      [], false, false, false⟩ : SlashCommand) ∈ create_default_commands := by
    unfold create_default_commands
    exact List.mem_cons_self _ _
  exact ⟨hmem, (c9_delete_builtin [] none none _ hmem).1,
    (c9_delete_builtin [] none none _ hmem).2⟩

/-! ## Claim C7: the recursive scanner -/

theorem findEntry_cons_self (e : Entry) (es : List Entry) :
    findEntry (e :: es) (entryName e) = some e := by
  simp [findEntry, List.find?_cons]

theorem findEntry_cons_ne (e : Entry) (es : List Entry) {n : String}
    (h : n ≠ entryName e) : findEntry (e :: es) n = findEntry es n := by
  have : (entryName e == n) = false := by
    simp [h.symm]
  simp [findEntry, List.find?_cons, this]

theorem findEntry_name {es : List Entry} {n : String} {e : Entry}
    (h : findEntry es n = some e) : e ∈ es ∧ entryName e = n := by
  refine ⟨List.mem_of_find?_eq_some h, ?_⟩
  have := List.find?_some h
  simpa using this

theorem lookupPath_cons_expand (es : List Entry) (d : String)
    {more : List String} (h : more ≠ []) :
    lookupPath es (d :: more)
      = (match findEntry es d with
         | some (.dir _ cs) => lookupPath cs more
         | _ => none) := by
  cases more with
  | nil => exact absurd rfl h
  | cons m mm => rfl

theorem lookupPath_cons_ne (e : Entry) (rest : List Entry) {m : String}
    (more : List String) (h : m ≠ entryName e) :
    lookupPath (e :: rest) (m :: more) = lookupPath rest (m :: more) := by
  cases more with
  | nil =>
    show findEntry (e :: rest) m = findEntry rest m
    exact findEntry_cons_ne e rest h
  | cons m2 mm =>
    show (match findEntry (e :: rest) m with
          | some (.dir _ cs) => lookupPath cs (m2 :: mm)
          | _ => none) = _
    rw [findEntry_cons_ne e rest h]
    rfl

theorem lookupPath_head {es : List Entry} {m : String} {more : List String}
    {x : Entry} (h : lookupPath es (m :: more) = some x) :
    ∃ e ∈ es, entryName e = m := by
  cases more with
  | nil =>
    obtain ⟨hmem, hname⟩ := findEntry_name h
    exact ⟨x, hmem, hname⟩
  | cons m2 mm =>
    simp only [lookupPath] at h
    cases hf : findEntry es m with
    | none => rw [hf] at h; exact absurd h (by simp)
    | some e =>
      obtain ⟨hmem, hname⟩ := findEntry_name hf
      exact ⟨e, hmem, hname⟩

theorem childrenOf_cons (es : List Entry) (d : String) (ds : List String) :
    childrenOf es (d :: ds)
      = (match findEntry es d with
         | some (.dir _ cs') => childrenOf cs' ds
         | _ => none) := by
  cases ds with
  | nil =>
    show (match lookupPath es [d] with
          | some (.dir _ cs) => some cs
          | _ => none) = _
    show (match findEntry es d with
          | some (.dir _ cs) => some cs
          | _ => none) = _
    cases hf : findEntry es d with
    | none => rfl
    | some e => cases e <;> rfl
  | cons d2 ds' =>
    show (match lookupPath es (d :: d2 :: ds') with
          | some (.dir _ cs) => some cs
          | _ => none) = _
    show (match (match findEntry es d with
                 | some (.dir _ cs) => lookupPath cs (d2 :: ds')
                 | _ => none) with
          | some (.dir _ cs) => some cs
          | _ => none) = _
    cases hf : findEntry es d with
    | none => rfl
    | some e => cases e <;> rfl

theorem lookupPath_append {dir : List String} :
    ∀ {es cs : List Entry}, childrenOf es dir = some cs →
    ∀ {rel : List String}, rel ≠ [] →
    lookupPath es (dir ++ rel) = lookupPath cs rel := by
  induction dir with
  | nil =>
    intro es cs h rel _
    simp only [childrenOf, Option.some.injEq] at h
    subst h
    rfl
  | cons d ds ih =>
    intro es cs h rel hrel
    rw [childrenOf_cons] at h
    cases hf : findEntry es d with
    | none => rw [hf] at h; exact absurd h (by simp)
    | some e =>
      cases e with
      | file nm c => rw [hf] at h; exact absurd h (by simp)
      | dir nm cs' =>
        rw [hf] at h
        have hmore : ds ++ rel ≠ [] := by
          intro h0
          exact hrel (List.append_eq_nil.mp h0).2
        calc lookupPath es ((d :: ds) ++ rel)
            = lookupPath es (d :: (ds ++ rel)) := rfl
          _ = lookupPath cs' (ds ++ rel) := by
              rw [lookupPath_cons_expand es d hmore, hf]
          _ = lookupPath cs rel := ih h hrel

theorem wfList_mem {es : List Entry} (h : wfList es = true) {e : Entry}
    (he : e ∈ es) : wfEntry e = true := by
  induction es with
  | nil => simp at he
  | cons x xs ih =>
    rw [wfList] at h
    simp only [Bool.and_eq_true] at h
    rcases List.mem_cons.mp he with h1 | h1
    · subst h1; exact h.1.2
    · exact ih h.2 h1

theorem wf_childrenOf {dir : List String} :
    ∀ {es cs : List Entry}, wfList es = true → childrenOf es dir = some cs →
    wfList cs = true := by
  induction dir with
  | nil =>
    intro es cs hwf h
    simp only [childrenOf, Option.some.injEq] at h
    subst h
    exact hwf
  | cons d ds ih =>
    intro es cs hwf h
    rw [childrenOf_cons] at h
    cases hf : findEntry es d with
    | none => rw [hf] at h; exact absurd h (by simp)
    | some e =>
      cases e with
      | file nm c => rw [hf] at h; exact absurd h (by simp)
      | dir nm cs' =>
        rw [hf] at h
        have hwf' : wfEntry (.dir nm cs') = true :=
          wfList_mem hwf (findEntry_name hf).1
        exact ih (by simpa [wfEntry] using hwf') h

mutual
/-- Size measure for the nested file-system tree. -/
def entSize : Entry → Nat
  | .file _ _ => 1
  | .dir _ cs => entsSize cs + 1

def entsSize : List Entry → Nat
  | [] => 0
  | e :: es => entSize e + entsSize es + 1
end

/-- The semantic description of a scan hit below a directory with entry
list `cs`: a nonempty relative path of non-hidden components reaching a
file whose name has extension `md`. -/
def mdFileAt (cs : List Entry) (rel : List String) : Prop :=
  rel ≠ [] ∧ (∀ s ∈ rel, strStartsWith s "." = false) ∧
  (∃ last, rel.getLast? = some last ∧ rustExtension last = some "md") ∧
  (∃ nm c, lookupPath cs rel = some (.file nm c))

theorem mdFileAt_nil (rel : List String) : ¬ mdFileAt [] rel := by
  rintro ⟨hne, -, -, nm, c, hlook⟩
  cases rel with
  | nil => exact hne rfl
  | cons m more => cases more <;> simp [lookupPath, findEntry] at hlook

theorem getLast?_cons_ne_nil {α : Type} (n : α) {l : List α} (h : l ≠ []) :
    (n :: l).getLast? = l.getLast? := by
  cases l with
  | nil => exact absurd rfl h
  | cons x xs => rfl

theorem walk_mem_aux : ∀ (N : Nat) (cs : List Entry), entsSize cs ≤ N →
    wfList cs = true → ∀ (pre p : List String),
    (p ∈ walkEntries pre cs ↔ ∃ rel, p = pre ++ rel ∧ mdFileAt cs rel) := by
  intro N
  induction N with
  | zero =>
    intro cs h hwf pre p
    cases cs with
    | nil =>
      constructor
      · intro h0
        simp [walkEntries] at h0
      · rintro ⟨rel, -, hmd⟩
        exact absurd hmd (mdFileAt_nil rel)
    | cons e rest =>
      simp [entsSize] at h
  | succ n ih =>
    intro cs h hwf pre p
    cases cs with
    | nil =>
      constructor
      · intro h0
        simp [walkEntries] at h0
      · rintro ⟨rel, -, hmd⟩
        exact absurd hmd (mdFileAt_nil rel)
    | cons e rest =>
      rw [wfList] at hwf
      simp only [Bool.and_eq_true] at hwf
      obtain ⟨⟨hna, hwe⟩, hwr⟩ := hwf
      have hsizeRest : entsSize rest ≤ n := by
        simp [entsSize] at h
        have : 1 ≤ entSize e := by cases e <;> simp [entSize]
        omega
      have hsizeSub : ∀ sub nm, e = .dir nm sub → entsSize sub ≤ n := by
        intro sub nm he
        subst he
        simp [entsSize, entSize] at h
        omega
      have hRest := ih rest hsizeRest hwr pre p
      rw [walkEntries, List.mem_append]
      constructor
      · rintro (hA | hB)
        · cases e with
          | file nm c =>
            rw [walkEntry] at hA
            by_cases hh : strStartsWith nm "."
            · rw [if_pos hh] at hA
              simp at hA
            · rw [if_neg hh] at hA
              by_cases hext : rustExtension nm = some "md"
              · rw [if_pos hext] at hA
                simp at hA
                refine ⟨[nm], hA, by simp, ?_, ⟨nm, rfl, hext⟩, nm, c, ?_⟩
                · intro s hs
                  simp at hs
                  subst hs
                  simpa using hh
                · exact findEntry_cons_self (.file nm c) rest
              · rw [if_neg hext] at hA
                simp at hA
          | dir nm sub =>
            rw [walkEntry] at hA
            by_cases hh : strStartsWith nm "."
            · rw [if_pos hh] at hA
              simp at hA
            · rw [if_neg hh] at hA
              have hsub := ih sub (hsizeSub sub nm rfl)
                (by simpa [wfEntry] using hwe) (pre ++ [nm]) p
              obtain ⟨rel', hp, hne', hhid', hlast', fnm, fc, hl⟩ := hsub.mp hA
              refine ⟨nm :: rel', by simp [hp], by simp, ?_, ?_, fnm, fc, ?_⟩
              · intro s hs
                rcases List.mem_cons.mp hs with h1 | h1
                · subst h1
                  simpa using hh
                · exact hhid' s h1
              · obtain ⟨last, hl1, hl2⟩ := hlast'
                exact ⟨last, by rw [getLast?_cons_ne_nil nm hne']; exact hl1, hl2⟩
              · rw [lookupPath_cons_expand _ _ hne',
                  show findEntry (Entry.dir nm sub :: rest) nm
                      = some (.dir nm sub) from
                    findEntry_cons_self (.dir nm sub) rest]
                exact hl
        · obtain ⟨rel, hp, hne', hhid', hlast', fnm, fc, hl⟩ := hRest.mp hB
          cases rel with
          | nil => exact absurd rfl hne'
          | cons m more =>
            obtain ⟨e', he'mem, he'nm⟩ := lookupPath_head hl
            have hm_ne : m ≠ entryName e := by
              have hx := List.all_eq_true.mp hna e' he'mem
              simp only [bne_iff_ne, ne_eq] at hx
              rw [← he'nm]
              exact hx
            refine ⟨m :: more, hp, hne', hhid', hlast', fnm, fc, ?_⟩
            rw [lookupPath_cons_ne e rest more hm_ne]
            exact hl
      · rintro ⟨rel, hp, hne', hhid', hlast', fnm, fc, hl⟩
        cases rel with
        | nil => exact absurd rfl hne'
        | cons m more =>
          cases e with
          | file enm ec =>
            by_cases hm : m = enm
            · subst hm
              cases more with
              | nil =>
                left
                rw [walkEntry]
                have hhide : strStartsWith m "." = false :=
                  hhid' m (List.mem_cons_self _ _)
                rw [if_neg (by simp [hhide])]
                obtain ⟨last, hl1, hl2⟩ := hlast'
                have hlm : last = m := by
                  simpa using hl1.symm
                subst hlm
                rw [if_pos hl2]
                simp [hp]
              | cons m2 mm =>
                exfalso
                rw [lookupPath_cons_expand _ _ (by simp),
                  show findEntry (Entry.file m ec :: rest) m
                      = some (.file m ec) from
                    findEntry_cons_self (.file m ec) rest] at hl
                simp at hl
            · right
              apply hRest.mpr
              refine ⟨m :: more, hp, hne', hhid', hlast', fnm, fc, ?_⟩
              rw [← lookupPath_cons_ne (Entry.file enm ec) rest more hm]
              exact hl
          | dir enm sub =>
            by_cases hm : m = enm
            · subst hm
              cases more with
              | nil =>
                exfalso
                have hself : lookupPath (Entry.dir m sub :: rest) [m]
                    = some (.dir m sub) :=
                  findEntry_cons_self (.dir m sub) rest
                rw [hself] at hl
                simp at hl
              | cons m2 mm =>
                left
                rw [walkEntry]
                have hhide : strStartsWith m "." = false :=
                  hhid' m (List.mem_cons_self _ _)
                rw [if_neg (by simp [hhide])]
                apply (ih sub (hsizeSub sub m rfl)
                  (by simpa [wfEntry] using hwe) (pre ++ [m]) p).mpr
                rw [lookupPath_cons_expand _ _ (by simp),
                  show findEntry (Entry.dir m sub :: rest) m
                      = some (.dir m sub) from
                    findEntry_cons_self (.dir m sub) rest] at hl
                refine ⟨m2 :: mm, by simp [hp], by simp, ?_, ?_, fnm, fc, hl⟩
                · intro s hs
                  exact hhid' s (List.mem_cons_of_mem _ hs)
                · obtain ⟨last, hl1, hl2⟩ := hlast'
                  rw [getLast?_cons_ne_nil m (by simp)] at hl1
                  exact ⟨last, hl1, hl2⟩
            · right
              apply hRest.mpr
              refine ⟨m :: more, hp, hne', hhid', hlast', fnm, fc, ?_⟩
              rw [← lookupPath_cons_ne (Entry.dir enm sub) rest more hm]
              exact hl

/-- C7: the recursive file finder returns exactly the paths of files with
extension `md` at any depth under the input directory, excluding every
hidden-named file or directory together with everything beneath it; a root
that does not exist yields an empty result rather than an error. -/
theorem c7_scan_exact (es : FS) (dir : List String) (hwf : wfList es = true) :
    (pathExists es dir = false → find_markdown_files es dir = .ok []) ∧
    (∀ l, find_markdown_files es dir = .ok l → pathExists es dir = true →
      ∀ p, p ∈ l ↔ ∃ rel, p = dir ++ rel ∧ rel ≠ [] ∧
        (∀ s ∈ rel, strStartsWith s "." = false) ∧
        (∃ last, rel.getLast? = some last ∧ rustExtension last = some "md") ∧
        isFile es p = true) := by
  constructor
  · intro h
    simp [find_markdown_files, h]
  · intro l hfind hex p
    unfold find_markdown_files at hfind
    rw [if_neg (by simp [hex])] at hfind
    cases hch : childrenOf es dir with
    | none => rw [hch] at hfind; exact absurd hfind (by simp)
    | some cs =>
      rw [hch] at hfind
      have hl : l = walkEntries dir cs := by simpa using hfind.symm
      subst hl
      have hwcs : wfList cs = true := wf_childrenOf hwf hch
      rw [walk_mem_aux (entsSize cs) cs le_rfl hwcs dir p]
      simp only [mdFileAt]
      constructor
      · rintro ⟨rel, hp, hne, hhid, hlast, fnm, fc, hlook⟩
        refine ⟨rel, hp, hne, hhid, hlast, ?_⟩
        unfold isFile
        rw [hp, lookupPath_append hch hne, hlook]
      · rintro ⟨rel, hp, hne, hhid, hlast, hfile⟩
        refine ⟨rel, hp, hne, hhid, hlast, ?_⟩
        unfold isFile at hfile
        rw [hp, lookupPath_append hch hne] at hfile
        cases hlk : lookupPath cs rel with
        | none => rw [hlk] at hfile; simp at hfile
        | some x =>
          cases x with
          | file fnm fc => exact ⟨fnm, fc, rfl⟩
          | dir dn dcs => rw [hlk] at hfile; simp at hfile

/-- A concrete tree with a hidden directory, a non-markdown file and a
nested markdown file, used to witness the scanner characterization. -/
def fsW : FS :=
  [.dir "home" [.dir "c" [.file "x.md" "", .dir ".git" [.file "y.md" ""],
    .file "z.txt" ""]]]

theorem c7_witness :
    (pathExists fsW ["nope"] = false ∧
      find_markdown_files fsW ["nope"] = .ok []) ∧
    (find_markdown_files fsW ["home", "c"] = .ok [["home", "c", "x.md"]] ∧
      pathExists fsW ["home", "c"] = true ∧
      (["home", "c", "x.md"] ∈ [[("home" : String), "c", "x.md"]] ↔
        ∃ rel, ["home", "c", "x.md"] = ["home", "c"] ++ rel ∧ rel ≠ [] ∧
          (∀ s ∈ rel, strStartsWith s "." = false) ∧
          (∃ last, rel.getLast? = some last ∧
            rustExtension last = some "md") ∧
          isFile fsW ["home", "c", "x.md"] = true)) := by
  refine ⟨⟨by decide, (c7_scan_exact fsW ["nope"] (by decide)).1 (by decide)⟩,
    by decide, by decide, ?_⟩
  exact (c7_scan_exact fsW ["home", "c"] (by decide)).2
    [["home", "c", "x.md"]] (by decide) (by decide) ["home", "c", "x.md"]

/-! ## Claim C2: delete and directory cleanup -/

theorem rustExtension_rule {s : String} {p1 p2 : List Char}
    {rest : List (List Char)} (h : chSplit '.' s.data = p1 :: p2 :: rest)
    (hne : p1 = [] → rest ≠ []) :
    rustExtension s = ((p1 :: p2 :: rest).getLast?).map String.mk := by
  unfold rustExtension
  rw [h]
  cases rest with
  | nil =>
    cases p1 with
    | nil => exact absurd rfl (hne rfl)
    | cons x xs => rfl
  | cons r rs =>
    cases p1 with
    | nil => rfl
    | cons x xs => rfl

/-- The extension of `nm ++ ".md"` is `md`, for nonempty `nm`. -/
theorem rustExtension_append_md {nm : String} (h : nm ≠ "") :
    rustExtension (nm ++ ".md") = some "md" := by
  have hcd : nm.data ≠ [] := fun h0 => h (string_data_inj h0)
  have hsplit : chSplit '.' (nm ++ ".md").data
      = chSplit '.' nm.data ++ [['m', 'd']] := by
    rw [String.data_append, chSplit_append_sep]
    have hmd : chSplit '.' ['m', 'd'] = [['m', 'd']] := by decide
    rw [hmd]
  have hjoin := joinCh_chSplit '.' nm.data
  cases h0 : chSplit '.' nm.data with
  | nil => exact absurd h0 (chSplit_ne_nil '.' nm.data)
  | cons p ps =>
    rw [h0] at hjoin
    cases ps with
    | nil =>
      have hp : p = nm.data := by simpa [joinCh] using hjoin
      have hrule := @rustExtension_rule (nm ++ ".md") p ['m', 'd'] []
        (by rw [hsplit, h0]; rfl) (fun hp0 _ => hcd (hp.symm.trans hp0))
      rw [hrule]
      rfl
    | cons q qs =>
      have hshape : chSplit '.' (nm ++ ".md").data
          = p :: q :: (qs ++ [['m', 'd']]) := by
        rw [hsplit, h0]
        simp
      have hrule := rustExtension_rule hshape (fun _ hq => by simp at hq)
      rw [hrule]
      have : (p :: q :: (qs ++ [['m', 'd']])).getLast? = some ['m', 'd'] := by
        have h1 : p :: q :: (qs ++ [['m', 'd']])
            = (p :: q :: qs) ++ [['m', 'd']] := by simp
        rw [h1, List.getLast?_concat]
      rw [this]
      rfl

theorem chSplit_joinCh (sep : Char) :
    ∀ parts : List (List Char), parts ≠ [] → (∀ q ∈ parts, sep ∉ q) →
    chSplit sep (joinCh sep parts) = parts := by
  intro parts
  induction parts with
  | nil => intro h; exact absurd rfl h
  | cons x xs ih =>
    intro _ hq
    cases xs with
    | nil =>
      show chSplit sep x = [x]
      exact chSplit_eq_single (hq x (List.mem_cons_self _ _))
    | cons y ys =>
      show chSplit sep (x ++ sep :: joinCh sep (y :: ys)) = x :: y :: ys
      rw [chSplit_append_sep, chSplit_eq_single (hq x (List.mem_cons_self _ _)),
        ih (by simp) (fun q hmem => hq q (List.mem_cons_of_mem _ hmem))]
      rfl

theorem map_mk_map_data (l : List String) :
    (l.map String.data).map String.mk = l := by
  induction l with
  | nil => rfl
  | cons a as ih =>
    show String.mk a.data :: (as.map String.data).map String.mk = a :: as
    rw [ih]

/-- Rendering a path with nonempty, slash-free components and reading it
back recovers the components. -/
theorem pathOfString_pathStr {p : List String}
    (h : ∀ s ∈ p, s ≠ "" ∧ '/' ∉ s.data) : pathOfString (pathStr p) = p := by
  cases p with
  | nil => decide
  | cons x xs =>
    have hdata : (pathStr (x :: xs)).data
        = '/' :: joinCh '/' ((x :: xs).map String.data) := by
      show ("/" ++ strJoinWith '/' (x :: xs)).data = _
      rw [String.data_append]
      rfl
    have hparts : ∀ q ∈ (x :: xs).map String.data, '/' ∉ q := by
      intro q hqmem
      obtain ⟨s, hs, rfl⟩ := List.mem_map.mp hqmem
      exact (h s hs).2
    have hsplit : chSplit '/' ('/' :: joinCh '/' ((x :: xs).map String.data))
        = [] :: (x :: xs).map String.data := by
      show (if '/' = '/' then
              [] :: chSplit '/' (joinCh '/' ((x :: xs).map String.data))
            else _) = _
      rw [if_pos rfl, chSplit_joinCh '/' _ (by simp) hparts]
    unfold pathOfString strSplit
    rw [hdata, hsplit, List.map_cons, map_mk_map_data, List.filter_cons]
    have h0 : (decide (String.mk [] ≠ "")) = false := by decide
    rw [h0]
    exact List.filter_eq_self.mpr (fun s hs => by
      simpa using (h s hs).1)

/-- C2 counterexample: deleting the only command `a/b/c.md` under the user
commands root succeeds, yet the commands root directory itself
(`/home/.claude/commands`) is removed as well — the upward cleanup does
not stop below the commands root, contradicting the claim that the root
is always left in place. -/
theorem c2_counterexample :
    (slash_command_delete
        [.dir "home" [.dir ".claude" [.dir "commands"
          [.dir "a" [.dir "b" [.file "c.md" "hello"]]]]]]
        "user--home-.claude-commands-a-b-c.md" none (some ["home"])).1
      = .ok "Deleted command: /a:b:c" ∧
    pathExists
      (slash_command_delete
        [.dir "home" [.dir ".claude" [.dir "commands"
          [.dir "a" [.dir "b" [.file "c.md" "hello"]]]]]]
        "user--home-.claude-commands-a-b-c.md" none (some ["home"])).2
      ["home", ".claude", "commands"] = false := by
  constructor
  · decide
  · decide

/-- C2 (amended): after the delete operation removes the backing file of
the only command in a nested namespace directory, the cleanup removes each
now-empty ancestor directory without stopping at the commands root: the
commands root itself and every empty directory above it are removed as
well, up to the file-system root.  Here the whole tree above the deleted
file empties out, so the resulting file system is empty. -/
theorem c2_amended_cleanup (u a b nm body : String)
    (hu1 : '/' ∉ u.data) (hu2 : u ≠ "")
    (ha1 : '/' ∉ a.data) (ha2 : a ≠ "") (ha3 : strStartsWith a "." = false)
    (hb1 : '/' ∉ b.data) (hb2 : b ≠ "") (hb3 : strStartsWith b "." = false)
    (hn1 : '/' ∉ nm.data) (hn2 : nm ≠ "")
    (hn3 : strStartsWith (nm ++ ".md") "." = false) :
    slash_command_delete
      [.dir u [.dir ".claude" [.dir "commands"
        [.dir a [.dir b [.file (nm ++ ".md") body]]]]]]
      ("user" ++ "-" ++ strReplaceChar
        (pathStr [u, ".claude", "commands", a, b, nm ++ ".md"]) '/' '-')
      none (some [u])
    = (.ok ("Deleted command: " ++ ("/" ++ (a ++ ":" ++ b) ++ ":" ++ nm)),
       []) := by
  set fs0 : FS := [.dir u [.dir ".claude" [.dir "commands"
    [.dir a [.dir b [.file (nm ++ ".md") body]]]]]] with hfs0
  set fpath : List String := [u, ".claude", "commands", a, b, nm ++ ".md"]
    with hfpath
  -- the components of fpath are nonempty and slash-free
  have hnmd1 : (nm ++ ".md") ≠ "" := by
    intro h0
    have := congrArg String.data h0
    rw [String.data_append] at this
    cases hx : nm.data with
    | nil => exact hn2 (string_data_inj hx)
    | cons y ys => rw [hx] at this; simp at this
  have hnmd2 : '/' ∉ (nm ++ ".md").data := by
    rw [String.data_append]
    intro hmem
    rcases List.mem_append.mp hmem with h1 | h1
    · exact hn1 h1
    · simp at h1
  -- the file is read back as written
  have hread : readFile fs0 fpath = some body := by
    simp [readFile, hfs0, hfpath, lookupPath, findEntry, List.find?_cons,
      entryName]
  obtain ⟨⟨fm0, body0⟩, hp0⟩ := parse_markdown_ok body
  have hextract : extract_command_info fpath [u, ".claude", "commands"]
      = .ok (nm, some (a ++ ":" ++ b)) := by
    have := @extract_three [u, ".claude", "commands"] _ _ _
      ha1 hb1 hn1 hn2
    simpa [hfpath] using this
  have hload := @load_eq _ _ _ "user" _ _ _ _ _ hread hp0 hextract
  -- the scan of the user commands directory finds exactly the one file
  have hex : pathExists fs0 [u, ".claude", "commands"] = true := by
    simp [pathExists, hfs0, lookupPath, findEntry, List.find?_cons, entryName]
  have hch : childrenOf fs0 [u, ".claude", "commands"]
      = some [.dir a [.dir b [.file (nm ++ ".md") body]]] := by
    simp [childrenOf, hfs0, lookupPath, findEntry, List.find?_cons, entryName]
  have hfindmd : find_markdown_files fs0 [u, ".claude", "commands"]
      = .ok [fpath] := by
    unfold find_markdown_files
    rw [if_neg (by simp [hex]), hch]
    simp [walkEntries, walkEntry, ha3, hb3, hn3,
      rustExtension_append_md hn2, hfpath]
  have hscan : scannedCommands fs0 [u, ".claude", "commands"] "user"
      = [⟨"user" ++ "-" ++ strReplaceChar (pathStr fpath) '/' '-', nm,
          "/" ++ (a ++ ":" ++ b) ++ ":" ++ nm, "user", some (a ++ ":" ++ b),
          pathStr fpath, body0,
          fm0.bind CommandFrontmatter.description,
          (fm0.bind CommandFrontmatter.allowed_tools).getD [],
          strContainsSub body0 "!`", strContainsChar body0 '@',
          strContainsSub body0 "$ARGUMENTS"⟩] := by
    unfold scannedCommands
    rw [if_pos hex, hfindmd]
    simp only [List.filterMap_cons, List.filterMap_nil, hload,
      Except.toOption]
  -- the full listing is the built-ins followed by the one loaded command
  have hlist : slash_commands_list fs0 none (some [u])
      = .ok (create_default_commands ++
          [⟨"user" ++ "-" ++ strReplaceChar (pathStr fpath) '/' '-', nm,
            "/" ++ (a ++ ":" ++ b) ++ ":" ++ nm, "user", some (a ++ ":" ++ b),
            pathStr fpath, body0,
            fm0.bind CommandFrontmatter.description,
            (fm0.bind CommandFrontmatter.allowed_tools).getD [],
            strContainsSub body0 "!`", strContainsChar body0 '@',
            strContainsSub body0 "$ARGUMENTS"⟩]) := by
    simp only [slash_commands_list_eq, List.append_nil, List.singleton_append]
    rw [hscan]
  -- no built-in identifier matches the loaded identifier
  have hid_head :
      ("user" ++ "-" ++ strReplaceChar (pathStr fpath) '/' '-').data.head?
      = some 'u' := by
    rw [String.data_append]
    rfl
  have hnone : create_default_commands.find?
      (fun c => c.id ==
        ("user" ++ "-" ++ strReplaceChar (pathStr fpath) '/' '-'))
      = none := by
    apply List.find?_eq_none.mpr
    intro d hd
    have hdh : d.id.data.head? = some 'd' := by
      have hall : create_default_commands.all
          (fun x => x.id.data.head? == some 'd') = true := by decide
      simpa using List.all_eq_true.mp hall d hd
    simp only [Bool.not_eq_true, beq_eq_false_iff_ne, ne_eq]
    intro hbeq
    rw [hbeq, hid_head] at hdh
    simp at hdh
  have hfind : (create_default_commands ++
      [(⟨"user" ++ "-" ++ strReplaceChar (pathStr fpath) '/' '-', nm,
        "/" ++ (a ++ ":" ++ b) ++ ":" ++ nm, "user", some (a ++ ":" ++ b),
        pathStr fpath, body0,
        fm0.bind CommandFrontmatter.description,
        (fm0.bind CommandFrontmatter.allowed_tools).getD [],
        strContainsSub body0 "!`", strContainsChar body0 '@',
        strContainsSub body0 "$ARGUMENTS"⟩ : SlashCommand)]).find?
      (fun c => c.id ==
        ("user" ++ "-" ++ strReplaceChar (pathStr fpath) '/' '-'))
      = some ⟨"user" ++ "-" ++ strReplaceChar (pathStr fpath) '/' '-', nm,
        "/" ++ (a ++ ":" ++ b) ++ ":" ++ nm, "user", some (a ++ ":" ++ b),
        pathStr fpath, body0,
        fm0.bind CommandFrontmatter.description,
        (fm0.bind CommandFrontmatter.allowed_tools).getD [],
        strContainsSub body0 "!`", strContainsChar body0 '@',
        strContainsSub body0 "$ARGUMENTS"⟩ := by
    rw [List.find?_append, hnone]
    simp [List.find?_cons]
  -- removing the file empties the nested directories
  have hrm : removeFileFS fs0 fpath
      = some [.dir u [.dir ".claude" [.dir "commands"
          [.dir a [.dir b []]]]]] := by
    simp [hfs0, hfpath, removeFileFS, findEntry, List.find?_cons, entryName,
      replaceEntry, eraseEntry]
  have hpof : pathOfString (pathStr fpath) = fpath := by
    apply pathOfString_pathStr
    intro s hs
    simp only [hfpath, List.mem_cons, List.not_mem_nil, or_false] at hs
    rcases hs with rfl | rfl | rfl | rfl | rfl | rfl
    · exact ⟨hu2, hu1⟩
    · exact ⟨by decide, by decide⟩
    · exact ⟨by decide, by decide⟩
    · exact ⟨ha2, ha1⟩
    · exact ⟨hb2, hb1⟩
    · exact ⟨hnmd1, hnmd2⟩
  -- the upward cleanup removes every ancestor, commands root included
  have hclean : remove_empty_dirs
      [.dir u [.dir ".claude" [.dir "commands" [.dir a [.dir b []]]]]]
      [u, ".claude", "commands", a, b] = (.ok (), []) := by
    simp [remove_empty_dirs, removeEmptyDirsRev, pathExists, childrenOf,
      lookupPath, findEntry, List.find?_cons, entryName, removeDirFS,
      eraseEntry, replaceEntry]
  -- assemble the delete operation
  have hproj : strStartsWith
      ("user" ++ "-" ++ strReplaceChar (pathStr fpath) '/' '-') "project-"
      = false := by
    unfold strStartsWith
    rw [String.data_append]
    rfl
  unfold slash_command_delete
  simp only [hproj, Bool.false_and, Bool.false_eq_true, if_false, hlist,
    hfind, hpof, hrm, hfpath]
  have hdl : ([u, ".claude", "commands", a, b, nm ++ ".md"] :
      List String).dropLast = [u, ".claude", "commands", a, b] := rfl
  rw [hdl, hclean]

theorem c2_witness :
    slash_command_delete
      [.dir "home" [.dir ".claude" [.dir "commands"
        [.dir "a" [.dir "b" [.file ("c" ++ ".md") "hello"]]]]]]
      ("user" ++ "-" ++ strReplaceChar
        (pathStr ["home", ".claude", "commands", "a", "b", "c" ++ ".md"])
        '/' '-')
      none (some ["home"])
    = (.ok ("Deleted command: " ++
        ("/" ++ ("a" ++ ":" ++ "b") ++ ":" ++ "c")), []) :=
  c2_amended_cleanup "home" "a" "b" "c" "hello" (by decide) (by decide)
    (by decide) (by decide) (by decide) (by decide) (by decide) (by decide)
    (by decide) (by decide) (by decide)

/-! ## Claim C1: the save round trip -/

theorem dropWhile_stable_of_chTrim {x : List Char} (h : chTrim x = x) :
    x.dropWhile Char.isWhitespace = x ∧
    x.reverse.dropWhile Char.isWhitespace = x.reverse := by
  have h1 : (x.dropWhile Char.isWhitespace).length ≤ x.length :=
    ((x.dropWhile_suffix Char.isWhitespace).sublist).length_le
  have h2 : (((x.dropWhile Char.isWhitespace).reverse).dropWhile
      Char.isWhitespace).length ≤ (x.dropWhile Char.isWhitespace).length := by
    have := (((x.dropWhile Char.isWhitespace).reverse).dropWhile_suffix
      Char.isWhitespace).sublist.length_le
    simpa using this
  have hlen : (((x.dropWhile Char.isWhitespace).reverse).dropWhile
      Char.isWhitespace).length = x.length := by
    have := congrArg List.length h
    simpa [chTrim] using this
  have hu : x.dropWhile Char.isWhitespace = x :=
    (x.dropWhile_suffix Char.isWhitespace).sublist.eq_of_length
      (by omega)
  constructor
  · exact hu
  · have hv : (x.reverse).dropWhile Char.isWhitespace
        = ((x.dropWhile Char.isWhitespace).reverse).dropWhile
            Char.isWhitespace := by rw [hu]
    have : ((x.reverse).dropWhile Char.isWhitespace).length
        = x.reverse.length := by
      rw [hv]
      simpa using hlen
    exact ((x.reverse).dropWhile_suffix Char.isWhitespace).sublist.eq_of_length
      this

theorem dropWhile_eq_self_append {p : Char → Bool} {l : List Char}
    (hl : l.dropWhile p = l) (hne : l ≠ []) (m : List Char) :
    (l ++ m).dropWhile p = l ++ m := by
  cases l with
  | nil => exact absurd rfl hne
  | cons c cs =>
    have hpc : p c = false := by
      by_contra hpc
      have hpc' : p c = true := by simpa using hpc
      have := congrArg List.length hl
      simp [List.dropWhile_cons, hpc'] at this
      have := ((cs.dropWhile_suffix p).sublist).length_le
      omega
    simp only [List.cons_append, List.dropWhile_cons, hpc]
    rfl

theorem chTrim_cons_space (x : List Char) : chTrim (' ' :: x) = chTrim x := by
  unfold chTrim
  rfl

theorem chTrim_ne_nil_of_head {c : Char} (hc : c.isWhitespace = false)
    (z : List Char) : chTrim (c :: z) ≠ [] := by
  intro h0
  unfold chTrim at h0
  rw [List.reverse_eq_nil_iff] at h0
  have hd : (c :: z).dropWhile Char.isWhitespace = c :: z := by
    simp [List.dropWhile_cons, hc]
  rw [hd] at h0
  have := List.dropWhile_eq_nil_iff.mp h0 c (by simp)
  rw [hc] at this
  exact Bool.false_ne_true this

/-- Trimming an emitted tools list line `"  - " ++ t` yields `"- " ++ t`
for a trim-stable nonempty `t`. -/
theorem chTrim_item_line {t : String} (hst : chTrim t.data = t.data)
    (hne : t ≠ "") : chTrim ("  - " ++ t).data = ("- " ++ t).data := by
  have hdata : ("  - " ++ t).data = ' ' :: ' ' :: '-' :: ' ' :: t.data := by
    rw [String.data_append]
    rfl
  have hstab := dropWhile_stable_of_chTrim hst
  have htne : t.data ≠ [] := fun h => hne (string_data_inj h)
  rw [hdata, chTrim_cons_space, chTrim_cons_space]
  unfold chTrim
  have hd1 : ('-' :: ' ' :: t.data).dropWhile Char.isWhitespace
      = '-' :: ' ' :: t.data := rfl
  rw [hd1]
  have hrev : ('-' :: ' ' :: t.data).reverse
      = t.data.reverse ++ [' ', '-'] := by simp
  rw [hrev]
  have hd2 : (t.data.reverse ++ [' ', '-']).dropWhile Char.isWhitespace
      = t.data.reverse ++ [' ', '-'] :=
    dropWhile_eq_self_append hstab.2 (by simpa using htne) _
  rw [hd2]
  have : (t.data.reverse ++ [' ', '-']).reverse = '-' :: ' ' :: t.data := by
    simp
  rw [this, String.data_append]
  rfl

theorem parseYaml_items (tools : List String)
    (ht : ∀ t ∈ tools, chTrim t.data = t.data ∧ t ≠ "") :
    ∀ (acc : List String) (desc : Option String),
    parseYamlLines (tools.map (fun t => "  - " ++ t)) (some acc) desc
      = .ok ⟨some (acc ++ tools), desc⟩ := by
  induction tools with
  | nil =>
    intro acc desc
    simp [parseYamlLines]
  | cons t ts ih =>
    intro acc desc
    obtain ⟨hst, hne⟩ := ht t (List.mem_cons_self _ _)
    have htrim : strTrim ("  - " ++ t) = "- " ++ t := by
      show String.mk (chTrim ("  - " ++ t).data) = _
      rw [chTrim_item_line hst hne]
    have hd2 : ("- " ++ t).data = '-' :: ' ' :: t.data := by
      rw [String.data_append]
      rfl
    have hb2 : strStartsWith ("  - " ++ t) "description:" = false := by
      unfold strStartsWith
      rw [String.data_append]
      rfl
    have hb4 : strStartsWith ("- " ++ t) "- " = true := by
      unfold strStartsWith
      rw [hd2]
      show List.isPrefixOf ['-', ' '] ('-' :: ' ' :: t.data) = true
      simp [List.isPrefixOf]
    have hitem : strTrim (strDrop ("- " ++ t) 2) = t := by
      show String.mk (chTrim (String.mk (("- " ++ t).data.drop 2)).data) = t
      rw [hd2]
      show String.mk (chTrim t.data) = t
      rw [hst]
    simp only [List.map_cons, parseYamlLines]
    rw [htrim]
    rw [if_neg (show ¬ ("- " ++ t) = "" by
      intro h0
      have := congrArg String.data h0
      rw [hd2] at this
      simp at this)]
    rw [if_neg (show ¬ strStartsWith ("  - " ++ t) "description:" = true by
      simp [hb2])]
    rw [if_neg (show ¬ ("- " ++ t) = "allowed-tools:" by
      intro h0
      have := congrArg String.data h0
      rw [hd2] at this
      have hh := congrArg List.head? this
      simp at hh)]
    rw [if_pos hb4]
    show parseYamlLines (ts.map (fun t => "  - " ++ t))
      (some (acc ++ [strTrim (strDrop ("- " ++ t) 2)])) desc = _
    rw [hitem, ih (fun x hx => ht x (List.mem_cons_of_mem _ hx))]
    simp

theorem parseYaml_toolsBlock (tools : List String)
    (ht : ∀ t ∈ tools, chTrim t.data = t.data ∧ t ≠ "")
    (dstate : Option String) :
    parseYamlLines
      (if tools = [] then []
       else "allowed-tools:" :: tools.map (fun t => "  - " ++ t))
      none dstate
    = .ok ⟨(if tools = [] then none else some tools), dstate⟩ := by
  by_cases h0 : tools = []
  · rw [if_pos h0, if_pos h0]
    rfl
  · rw [if_neg h0, if_neg h0]
    simp only [parseYamlLines]
    rw [if_neg (by decide), if_neg (by decide), if_pos (by decide)]
    rw [parseYaml_items tools ht [] dstate]
    rfl

/-- The header lines that the save serializer emits (before joining with
newlines). -/
def headerLines (description : Option String) (allowed_tools : List String) :
    List String :=
  (match description with
   | some d => ["description: " ++ d]
   | none => []) ++
  (if allowed_tools = [] then []
   else "allowed-tools:" :: allowed_tools.map (fun t => "  - " ++ t))

theorem parseYaml_header (desc : Option String) (tools : List String)
    (hd : ∀ d, desc = some d →
      chTrim d.data = d.data ∧ d ≠ "")
    (ht : ∀ t ∈ tools, chTrim t.data = t.data ∧ t ≠ "") :
    parseYamlLines (headerLines desc tools) none none
    = .ok ⟨(if tools = [] then none else some tools), desc⟩ := by
  unfold headerLines
  cases desc with
  | none =>
    simp only [List.nil_append]
    exact parseYaml_toolsBlock tools ht none
  | some d =>
    obtain ⟨hst, hne⟩ := hd d rfl
    have hld : ("description: " ++ d).data
        = "description:".data ++ (' ' :: d.data) := by
      rw [String.data_append]
      rfl
    have h1 : ¬ ("description: " ++ d : String) = "" := by
      intro h0
      have := congrArg String.data h0
      rw [hld] at this
      simp at this
    have h1' : ¬ strTrim ("description: " ++ d) = "" := by
      intro h0
      have hx := congrArg String.data h0
      have hld2 : ("description: " ++ d).data
          = 'd' :: ("escription: ".data ++ d.data) := by
        rw [String.data_append]
        rfl
      rw [show (strTrim ("description: " ++ d)).data
          = chTrim ("description: " ++ d).data from rfl, hld2] at hx
      exact chTrim_ne_nil_of_head (by decide) _ hx
    have h2 : strStartsWith ("description: " ++ d) "description:" = true := by
      unfold strStartsWith
      rw [hld]
      simp [List.isPrefixOf_iff_prefix]
    have h3 : strTrim (strDrop ("description: " ++ d) 12) = d := by
      show String.mk (chTrim (String.mk
        (("description: " ++ d).data.drop 12)).data) = d
      rw [hld]
      show String.mk (chTrim (' ' :: d.data)) = d
      rw [chTrim_cons_space, hst]
    simp only [List.cons_append, List.nil_append, parseYamlLines]
    rw [if_neg h1', if_pos (by simp [h2]), h3, if_neg hne]
    exact parseYaml_toolsBlock tools ht (some d)

theorem joinCh_concat_nil_getLast (sep : Char) :
    ∀ ps : List (List Char), ps ≠ [] →
    (joinCh sep (ps ++ [[]])).getLast? = some sep := by
  intro ps
  induction ps with
  | nil => intro h; exact absurd rfl h
  | cons x xs ih =>
    intro _
    cases xs with
    | nil =>
      show (joinCh sep [x, []]).getLast? = some sep
      show (x ++ sep :: joinCh sep [[]]).getLast? = some sep
      show (x ++ [sep]).getLast? = some sep
      exact List.getLast?_concat x
    | cons y ys =>
      show (x ++ sep :: joinCh sep ((y :: ys) ++ [[]])).getLast? = some sep
      have hJ := ih (by simp)
      have hJne : joinCh sep ((y :: ys) ++ [[]]) ≠ [] := by
        intro h0
        rw [h0] at hJ
        simp at hJ
      rw [List.getLast?_append, getLast?_cons_ne_nil sep hJne, hJ]
      rfl

theorem chSplit_last_ne_nil {l : List Char} (hl : l ≠ [])
    (h2 : l.getLast? ≠ some '\n') :
    (chSplit '\n' l).getLast? ≠ some [] := by
  intro hlast
  have hjoin := joinCh_chSplit '\n' l
  have hne := chSplit_ne_nil '\n' l
  have hdecomp : chSplit '\n' l = (chSplit '\n' l).dropLast ++ [[]] := by
    conv_lhs => rw [← List.dropLast_append_getLast? _ hlast]
  cases hdl : (chSplit '\n' l).dropLast with
  | nil =>
    rw [hdl] at hdecomp
    rw [hdecomp] at hjoin
    simp [joinCh] at hjoin
    exact hl hjoin
  | cons p ps =>
    rw [hdl] at hdecomp
    rw [hdecomp] at hjoin
    have := joinCh_concat_nil_getLast '\n' (p :: ps) (by simp)
    rw [hjoin] at this
    exact h2 this

theorem rustLines_plain {content : String} (h0 : content ≠ "")
    (h1 : content.data.getLast? ≠ some '\n') (h2 : '\r' ∉ content.data) :
    rustLines content = (chSplit '\n' content.data).map String.mk := by
  unfold rustLines
  rw [if_neg (fun h => h0 (string_data_inj h))]
  have hstrip : stripTrailingEmpty (chSplit '\n' content.data)
      = chSplit '\n' content.data := by
    unfold stripTrailingEmpty
    rw [if_neg (chSplit_last_ne_nil (fun h => h0 (string_data_inj h)) h1)]
  rw [hstrip]
  congr 1
  calc List.map stripCR (chSplit '\n' content.data)
      = List.map id (chSplit '\n' content.data) := by
        apply List.map_congr_left
        intro piece hpiece
        unfold stripCR
        rw [if_neg]
        · rfl
        · intro hcr
          exact h2 (mem_chSplit_subset hpiece
            (List.mem_of_mem_getLast? (hcr ▸ rfl)))
    _ = chSplit '\n' content.data := List.map_id _

theorem chSplit_lines (H : List String) (hH : ∀ l ∈ H, '\n' ∉ l.data)
    (tail : List Char) :
    chSplit '\n' ((H.map (fun l => l.data ++ ['\n'])).flatten ++ tail)
      = H.map String.data ++ chSplit '\n' tail := by
  induction H with
  | nil => simp
  | cons l ls ih =>
    have hshape : ((l :: ls).map (fun l => l.data ++ ['\n'])).flatten ++ tail
        = l.data ++ '\n' :: ((ls.map (fun l => l.data ++ ['\n'])).flatten
            ++ tail) := by
      simp
    rw [hshape, chSplit_append_sep,
      chSplit_eq_single (hH l (List.mem_cons_self _ _)),
      ih (fun x hx => hH x (List.mem_cons_of_mem _ hx))]
    rfl

theorem rustLines_joinNL (H : List String) (hne : H ≠ [])
    (hl : ∀ l ∈ H, '\n' ∉ l.data ∧ '\r' ∉ l.data ∧ l ≠ "") :
    rustLines (strJoinNL H) = H := by
  have hdata : (strJoinNL H).data = joinCh '\n' (H.map String.data) := rfl
  have hsplit : chSplit '\n' (joinCh '\n' (H.map String.data))
      = H.map String.data :=
    chSplit_joinCh '\n' _ (by simpa using hne)
      (fun q hq => by
        obtain ⟨s, hs, rfl⟩ := List.mem_map.mp hq
        exact (hl s hs).1)
  have hjne : (strJoinNL H).data ≠ [] := by
    rw [hdata]
    cases H with
    | nil => exact absurd rfl hne
    | cons x xs =>
      cases xs with
      | nil =>
        show x.data ≠ []
        exact fun h => (hl x (List.mem_cons_self _ _)).2.2 (string_data_inj h)
      | cons y ys =>
        show x.data ++ '\n' :: joinCh '\n' ((y :: ys).map String.data) ≠ []
        simp
  unfold rustLines
  rw [if_neg (by simpa using hjne), hdata, hsplit]
  have hstrip : stripTrailingEmpty (H.map String.data) = H.map String.data := by
    unfold stripTrailingEmpty
    rw [if_neg]
    intro h0
    have hmem : ([] : List Char) ∈ (List.map String.data H).getLast? := by
      rw [h0]
      rfl
    obtain ⟨s, hs, hsd⟩ := List.mem_map.mp (List.mem_of_mem_getLast? hmem)
    exact (hl s hs).2.2 (string_data_inj (by rw [hsd]))
  rw [hstrip]
  have hcrid : (List.map String.data H).map stripCR
      = List.map String.data H := by
    calc (List.map String.data H).map stripCR
        = (List.map String.data H).map id := by
          apply List.map_congr_left
          intro piece hpiece
          obtain ⟨s, hs, rfl⟩ := List.mem_map.mp hpiece
          unfold stripCR
          rw [if_neg]
          · rfl
          · intro hcr
            exact (hl s hs).2.1 (List.mem_of_mem_getLast? (hcr ▸ rfl))
      _ = List.map String.data H := List.map_id _
  rw [hcrid]
  exact map_mk_map_data H

theorem findIdx_first (H : List String) (r : List String)
    (hH : ∀ y ∈ H, (y == "---") = false) :
    (H ++ "---" :: r).findIdx? (fun l => l == "---") = some H.length := by
  induction H with
  | nil => simp [List.findIdx?]
  | cons a as ih => simp_all [List.findIdx?_cons]

theorem map_data_map_mk (l : List (List Char)) :
    (l.map String.mk).map String.data = l := by
  induction l with
  | nil => rfl
  | cons a as ih =>
    show a :: (as.map String.mk).map String.data = a :: as
    rw [ih]

/-- Splitting the serialized save output into pieces. -/
theorem chSplit_saved (H : List String) (content : String)
    (hHl : ∀ l ∈ H, '\n' ∉ l.data) :
    chSplit '\n' ("---\n" ++ (String.join (H.map (fun l => l ++ "\n"))
        ++ ("---\n\n" ++ content))).data
      = ([['-', '-', '-']] ++ H.map String.data ++ [['-', '-', '-'], []])
        ++ chSplit '\n' content.data := by
  have hJ : (String.join (H.map (fun l => l ++ "\n"))).data
      = (H.map (fun l => l.data ++ ['\n'])).flatten := by
    rw [String.join_eq]
    show ((H.map (fun l => l ++ "\n")).map String.data).flatten = _
    congr 1
    rw [List.map_map]
    apply List.map_congr_left
    intro l _
    show (l ++ "\n").data = l.data ++ ['\n']
    rw [String.data_append]
  have hfull : ("---\n" ++ (String.join (H.map (fun l => l ++ "\n"))
      ++ ("---\n\n" ++ content))).data
      = "---".data ++ '\n' :: ((H.map (fun l => l.data ++ ['\n'])).flatten
          ++ ("---".data ++ '\n' :: '\n' :: content.data)) := by
    rw [String.data_append, String.data_append, String.data_append, hJ]
    simp
  rw [hfull, chSplit_append_sep,
    chSplit_eq_single (show '\n' ∉ "---".data by decide),
    chSplit_lines H hHl]
  rw [chSplit_append_sep,
    chSplit_eq_single (show '\n' ∉ "---".data by decide)]
  show [('-' :: '-' :: '-' :: [])] ++ (H.map String.data
      ++ ([['-', '-', '-']] ++ ([] :: chSplit '\n' content.data))) = _
  simp

theorem mem_of_mem_chSplit {sep : Char} {l q : List Char}
    (hq : q ∈ chSplit sep l) : ∀ c ∈ q, c ∈ l := by
  induction l generalizing q with
  | nil =>
    simp only [chSplit, List.mem_singleton] at hq
    subst hq
    intro c hc
    cases hc
  | cons a as ih =>
    simp only [chSplit] at hq
    by_cases ha : a = sep
    · rw [if_pos ha] at hq
      rcases List.mem_cons.mp hq with h | h
      · subst h; intro c hc; cases hc
      · intro c hc
        exact List.mem_cons_of_mem a (ih h c hc)
    · rw [if_neg ha] at hq
      cases hsp : chSplit sep as with
      | nil => exact absurd hsp (chSplit_ne_nil sep as)
      | cons p ps =>
        rw [hsp] at hq
        rcases List.mem_cons.mp hq with h | h
        · subst h
          intro c hc
          rcases List.mem_cons.mp hc with h | h
          · exact h ▸ List.mem_cons_self a as
          · have : p ∈ chSplit sep as := hsp ▸ List.mem_cons_self p ps
            exact List.mem_cons_of_mem a (ih this c h)
        · have : q ∈ chSplit sep as := hsp ▸ List.mem_cons_of_mem p h
          intro c hc
          exact List.mem_cons_of_mem a (ih this c hc)

theorem stripCR_of_no_cr {q : List Char} (h : '\r' ∉ q) : stripCR q = q := by
  unfold stripCR
  rw [if_neg]
  intro hl
  exact h (List.mem_of_mem_getLast? hl)

/-- `rustLines` of the serialized save output. -/
theorem rustLines_saved (H : List String) (content : String)
    (hHl : ∀ l ∈ H, '\n' ∉ l.data ∧ '\r' ∉ l.data)
    (hc1 : content.data.getLast? ≠ some '\n') (hc2 : '\r' ∉ content.data) :
    rustLines ("---\n" ++ (String.join (H.map (fun l => l ++ "\n"))
        ++ ("---\n\n" ++ content)))
      = ("---" :: H ++ ["---", ""]) ++
        (if content = "" then []
         else (chSplit '\n' content.data).map String.mk) := by
  have hdne : ("---\n" ++ (String.join (H.map (fun l => l ++ "\n"))
      ++ ("---\n\n" ++ content))).data ≠ [] := by
    rw [String.data_append]
    simp
  have hP : ∀ q ∈ ([['-', '-', '-']] ++ H.map String.data
      ++ [['-', '-', '-'], []] : List (List Char)), '\r' ∉ q := by
    intro q hq
    rcases List.mem_append.mp hq with h1 | h2
    · rcases List.mem_append.mp h1 with h0 | hm
      · rw [List.mem_singleton.mp h0]; decide
      · obtain ⟨s, hs, rfl⟩ := List.mem_map.mp hm
        exact (hHl s hs).2
    · rcases List.mem_cons.mp h2 with h | h
      · rw [h]; decide
      · rw [List.mem_singleton.mp h]; decide
  unfold rustLines
  rw [if_neg hdne, chSplit_saved H content (fun l hl => (hHl l hl).1)]
  by_cases hc0 : content = ""
  · rw [if_pos hc0]
    subst hc0
    show ((stripTrailingEmpty (([['-', '-', '-']] ++ H.map String.data
        ++ [['-', '-', '-'], []]) ++ [[]])).map stripCR).map String.mk = _
    have hstrip : stripTrailingEmpty (([['-', '-', '-']] ++ H.map String.data
        ++ [['-', '-', '-'], []]) ++ [[]])
        = [['-', '-', '-']] ++ H.map String.data ++ [['-', '-', '-'], []] := by
      unfold stripTrailingEmpty
      rw [if_pos (by rw [List.getLast?_concat]), List.dropLast_concat]
    rw [hstrip]
    have hcr : ([['-', '-', '-']] ++ H.map String.data
        ++ [['-', '-', '-'], []]).map stripCR
        = [['-', '-', '-']] ++ H.map String.data ++ [['-', '-', '-'], []] := by
      rw [List.map_congr_left (fun q hq => stripCR_of_no_cr (hP q hq)),
        List.map_id']
    rw [hcr]
    simp only [List.map_append, List.map_cons, List.map_nil, List.map_map]
    rw [show (String.mk ∘ String.data) = id from funext (fun s => rfl)]
    simp
  · rw [if_neg hc0]
    have hcne : content.data ≠ [] := fun h => hc0 (string_data_inj h)
    have hsne : chSplit '\n' content.data ≠ [] := chSplit_ne_nil _ _
    have hlast := chSplit_last_ne_nil hcne hc1
    have hstrip : stripTrailingEmpty (([['-', '-', '-']] ++ H.map String.data
        ++ [['-', '-', '-'], []]) ++ chSplit '\n' content.data)
        = ([['-', '-', '-']] ++ H.map String.data ++ [['-', '-', '-'], []])
          ++ chSplit '\n' content.data := by
      unfold stripTrailingEmpty
      rw [List.getLast?_append_of_ne_nil _ hsne, if_neg hlast]
    rw [hstrip]
    have hcrS : ∀ q ∈ chSplit '\n' content.data, '\r' ∉ q := by
      intro q hq hcr
      exact hc2 (mem_of_mem_chSplit hq '\r' hcr)
    have hcr : ((([['-', '-', '-']] ++ H.map String.data
        ++ [['-', '-', '-'], []]) ++ chSplit '\n' content.data).map stripCR)
        = ([['-', '-', '-']] ++ H.map String.data ++ [['-', '-', '-'], []])
          ++ chSplit '\n' content.data := by
      refine List.map_congr_left (fun q hq => stripCR_of_no_cr ?_) |>.trans
        (List.map_id' _)
      rcases List.mem_append.mp hq with h | h
      · exact hP q h
      · exact hcrS q h
    rw [hcr]
    simp only [List.map_append, List.map_cons, List.map_nil, List.map_map]
    rw [show (String.mk ∘ String.data) = id from funext (fun s => rfl)]
    simp

/-- Parsing the file produced by the save serializer: the frontmatter lines
parse back, but the body picks up a leading newline (the blank separator
line joins into it). -/
theorem parse_saved_header (H : List String) (fm : CommandFrontmatter)
    (content : String) (hne : H ≠ [])
    (hHl : ∀ l ∈ H, '\n' ∉ l.data ∧ '\r' ∉ l.data ∧ l ≠ "" ∧
      (l == "---") = false)
    (hc1 : content.data.getLast? ≠ some '\n') (hc2 : '\r' ∉ content.data)
    (hyaml : parseYamlLines H none none = .ok fm) :
    parse_markdown_with_frontmatter
      ("---\n" ++ (String.join (H.map (fun l => l ++ "\n"))
        ++ ("---\n\n" ++ content)))
      = .ok (some fm, if content = "" then "" else "\n" ++ content) := by
  have hlines := rustLines_saved H content
    (fun l hl => ⟨(hHl l hl).1, (hHl l hl).2.1⟩) hc1 hc2
  have hshape : rustLines ("---\n" ++ (String.join (H.map (fun l => l ++ "\n"))
      ++ ("---\n\n" ++ content)))
      = "---" :: (H ++ "---" :: "" ::
          (if content = "" then []
           else (chSplit '\n' content.data).map String.mk)) := by
    rw [hlines]
    simp
  have hdrop1 : ("---" :: (H ++ "---" :: "" ::
      (if content = "" then []
       else (chSplit '\n' content.data).map String.mk))).drop 1
      = H ++ "---" :: "" ::
          (if content = "" then []
           else (chSplit '\n' content.data).map String.mk) := rfl
  have hfind : (H ++ "---" :: "" ::
      (if content = "" then []
       else (chSplit '\n' content.data).map String.mk)).findIdx?
        (fun l => l == "---") = some H.length :=
    findIdx_first H _ (fun y hy => (hHl y hy).2.2.2)
  have htake : ("---" :: (H ++ "---" :: "" ::
      (if content = "" then []
       else (chSplit '\n' content.data).map String.mk))).take (H.length + 1)
      = "---" :: H := by
    show "---" :: (H ++ _).take H.length = _
    rw [List.take_left]
  have hdrop2 : ("---" :: (H ++ "---" :: "" ::
      (if content = "" then []
       else (chSplit '\n' content.data).map String.mk))).drop
        (H.length + 1 + 1)
      = "" :: (if content = "" then []
          else (chSplit '\n' content.data).map String.mk) := by
    show (H ++ "---" :: "" :: _).drop (H.length + 1) = _
    have hre : H ++ "---" :: "" ::
        (if content = "" then []
         else (chSplit '\n' content.data).map String.mk)
        = (H ++ ["---"]) ++ "" ::
            (if content = "" then []
             else (chSplit '\n' content.data).map String.mk) := by
      simp
    rw [hre, show H.length + 1 = (H ++ ["---"]).length by simp,
      List.drop_left]
  have hfm : parseFrontmatterYaml (strJoinNL H) = .ok fm := by
    unfold parseFrontmatterYaml
    rw [rustLines_joinNL H hne
      (fun l hl => ⟨(hHl l hl).1, (hHl l hl).2.1, (hHl l hl).2.2.1⟩)]
    exact hyaml
  have hbody : strJoinNL ("" :: (if content = "" then []
      else (chSplit '\n' content.data).map String.mk))
      = (if content = "" then "" else "\n" ++ content) := by
    by_cases hc0 : content = ""
    · rw [if_pos hc0, if_pos hc0]
      rfl
    · rw [if_neg hc0, if_neg hc0]
      apply string_data_inj
      show joinCh '\n' (("" :: (chSplit '\n' content.data).map String.mk).map
        String.data) = _
      rw [List.map_cons, map_data_map_mk]
      have hcne : content.data ≠ [] := fun h => hc0 (string_data_inj h)
      cases hsp : chSplit '\n' content.data with
      | nil => exact absurd hsp (chSplit_ne_nil _ _)
      | cons p ps =>
        show ([] : List Char) ++ '\n' :: joinCh '\n' (p :: ps) = _
        rw [← hsp, joinCh_chSplit]
        rfl
  simp only [parse_markdown_with_frontmatter, hshape, List.head?_cons,
    ne_eq, not_true_eq_false, if_false, hdrop1, hfind, htake,
    List.drop_succ_cons, List.drop_zero, hdrop2, hfm]
  rw [hbody]

theorem findEntry_replaceEntry {es : List Entry} {n : String} {e2 : Entry}
    (hex : (findEntry es n).isSome = true) (hn : entryName e2 = n) :
    findEntry (replaceEntry es n e2) n = some e2 := by
  induction es with
  | nil => simp [findEntry] at hex
  | cons e es ih =>
    unfold replaceEntry
    by_cases he : entryName e = n
    · rw [if_pos he]
      unfold findEntry
      rw [List.find?_cons_of_pos _ (by simp [hn])]
    · rw [if_neg he]
      unfold findEntry at hex ⊢
      rw [List.find?_cons_of_neg _ (by simp [he])] at hex ⊢
      exact ih hex

theorem writeFile_read : ∀ (p : List String) (es es2 : List Entry)
    (c : String), writeFile es p c = some es2 → readFile es2 p = some c := by
  intro p
  induction p with
  | nil =>
    intro es es2 c h
    simp [writeFile] at h
  | cons n rest ih =>
    intro es es2 c h
    cases rest with
    | nil =>
      unfold writeFile at h
      cases hf : findEntry es n with
      | none =>
        simp only [hf] at h
        injection h with h
        subst h
        show readFile (es ++ [Entry.file n c]) [n] = some c
        unfold readFile lookupPath findEntry
        unfold findEntry at hf
        rw [List.find?_append, hf, Option.none_or,
          List.find?_cons_of_pos _ (by simp [entryName])]
      | some e =>
        cases e with
        | file m c0 =>
          simp only [hf] at h
          injection h with h
          subst h
          have hfe : findEntry (replaceEntry es n (.file n c)) n
              = some (.file n c) :=
            findEntry_replaceEntry (by rw [hf]; rfl) rfl
          unfold readFile lookupPath
          rw [hfe]
        | dir m cs => exact absurd h (by simp [hf])
    | cons m rest2 =>
      unfold writeFile at h
      cases hf : findEntry es n with
      | none => exact absurd h (by simp [hf])
      | some e =>
        cases e with
        | file _ _ => exact absurd h (by simp [hf])
        | dir nm cs =>
          simp only [hf] at h
          cases hw : writeFile cs (m :: rest2) c with
          | none => exact absurd h (by simp [hw])
          | some cs2 =>
            simp only [hw] at h
            injection h with h
            subst h
            have hfe : findEntry (replaceEntry es n (.dir n cs2)) n
                = some (.dir n cs2) :=
              findEntry_replaceEntry (by rw [hf]; rfl) rfl
            have hlp : lookupPath (replaceEntry es n (.dir n cs2))
                (n :: m :: rest2) = lookupPath cs2 (m :: rest2) := by
              conv_lhs => unfold lookupPath
              rw [hfe]
            have hrec := ih cs cs2 c hw
            unfold readFile at hrec ⊢
            rw [hlp]
            exact hrec

theorem join_data (ss : List String) :
    (String.join ss).data = (ss.map String.data).flatten := by
  rw [String.join_eq]

/-- The inline header serialization of the save operation equals the joined
`headerLines`. -/
theorem header_shape (description : Option String)
    (allowed_tools : List String) :
    (match description with
     | some desc => "description: " ++ desc ++ "\n"
     | none => "") ++
    (if allowed_tools ≠ [] then
      "allowed-tools:\n" ++
        String.join (allowed_tools.map (fun tool => "  - " ++ tool ++ "\n"))
     else "")
    = String.join ((headerLines description allowed_tools).map
        (fun l => l ++ "\n")) := by
  apply string_data_inj
  cases description <;> by_cases ht : allowed_tools = [] <;>
    simp [headerLines, ht, join_data, String.data_append, List.map_map,
      Function.comp_def]

theorem headerLines_props (desc : Option String) (tools : List String)
    (hd : ∀ d, desc = some d → '\n' ∉ d.data ∧ '\r' ∉ d.data ∧
      chTrim d.data = d.data ∧ d ≠ "")
    (ht : ∀ t ∈ tools, '\n' ∉ t.data ∧ '\r' ∉ t.data ∧
      chTrim t.data = t.data ∧ t ≠ "") :
    ∀ l ∈ headerLines desc tools, '\n' ∉ l.data ∧ '\r' ∉ l.data ∧ l ≠ "" ∧
      (l == "---") = false := by
  intro l hl
  unfold headerLines at hl
  have hlen3 : ∀ (s : String), s.data.length ≠ 3 → (s == "---") = false := by
    intro s hlen
    rw [beq_eq_false_iff_ne]
    intro heq
    exact hlen (by rw [heq]; rfl)
  rcases List.mem_append.mp hl with hml | hmr
  · cases hdc : desc with
    | none => rw [hdc] at hml; cases hml
    | some d =>
      rw [hdc] at hml
      have hle : l = "description: " ++ d := List.mem_singleton.mp hml
      have hdp := hd d hdc
      subst hle
      refine ⟨?_, ?_, ?_, ?_⟩
      · rw [String.data_append]
        intro hmem
        rcases List.mem_append.mp hmem with hx | hx
        · revert hx; decide
        · exact hdp.1 hx
      · rw [String.data_append]
        intro hmem
        rcases List.mem_append.mp hmem with hx | hx
        · revert hx; decide
        · exact hdp.2.1 hx
      · intro heq
        have := congrArg (fun s => s.data.length) heq
        simp [String.data_append] at this
      · apply hlen3
        rw [String.data_append]
        simp
  · by_cases htl : tools = []
    · rw [if_pos htl] at hmr; cases hmr
    · rw [if_neg htl] at hmr
      rcases List.mem_cons.mp hmr with hle | hml
      · subst hle
        refine ⟨by decide, by decide, by decide, by decide⟩
      · obtain ⟨t, hmt, hle⟩ := List.mem_map.mp hml
        have htp := ht t hmt
        subst hle
        refine ⟨?_, ?_, ?_, ?_⟩
        · rw [String.data_append]
          intro hmem
          rcases List.mem_append.mp hmem with hx | hx
          · revert hx; decide
          · exact htp.1 hx
        · rw [String.data_append]
          intro hmem
          rcases List.mem_append.mp hmem with hx | hx
          · revert hx; decide
          · exact htp.2.1 hx
        · intro heq
          have := congrArg (fun s => s.data.length) heq
          simp [String.data_append] at this
        · apply hlen3
          rw [String.data_append]
          simp

theorem savedContent_none (content : String) :
    savedContent none [] content = content := rfl

theorem savedContent_header (description : Option String)
    (allowed_tools : List String) (content : String)
    (hcond : description.isSome ∨ allowed_tools ≠ []) :
    savedContent description allowed_tools content
      = "---\n" ++ (String.join ((headerLines description allowed_tools).map
          (fun l => l ++ "\n")) ++ ("---\n\n" ++ content)) := by
  unfold savedContent
  rw [if_pos hcond]
  apply string_data_inj
  cases description <;> by_cases htl : allowed_tools = [] <;>
    simp [headerLines, htl, join_data, String.data_append, List.map_map,
      Function.comp_def]

/-- What parsing the serialized save output yields, in both the header and
the no-header case. -/
theorem parse_written (desc : Option String) (tools : List String)
    (content : String)
    (hd : ∀ d, desc = some d → '\n' ∉ d.data ∧ '\r' ∉ d.data ∧
      chTrim d.data = d.data ∧ d ≠ "")
    (ht : ∀ t ∈ tools, '\n' ∉ t.data ∧ '\r' ∉ t.data ∧
      chTrim t.data = t.data ∧ t ≠ "")
    (hc1 : content.data.getLast? ≠ some '\n') (hc2 : '\r' ∉ content.data)
    (hplain : desc = none → tools = [] →
      (rustLines content).head? ≠ some "---") :
    ∃ fm0 body0,
      parse_markdown_with_frontmatter (savedContent desc tools content)
        = .ok (fm0, body0)
      ∧ fm0.bind CommandFrontmatter.description = desc
      ∧ (fm0.bind CommandFrontmatter.allowed_tools).getD [] = tools
      ∧ body0 = (if desc = none ∧ tools = [] then content
          else if content = "" then "" else "\n" ++ content) := by
  by_cases hcase : desc = none ∧ tools = []
  · obtain ⟨hdn, htn⟩ := hcase
    subst hdn htn
    refine ⟨none, content, ?_, rfl, rfl, ?_⟩
    · rw [savedContent_none]
      simp only [parse_markdown_with_frontmatter]
      rw [if_pos (hplain rfl rfl)]
    · rw [if_pos ⟨rfl, rfl⟩]
  · have hcond : desc.isSome ∨ tools ≠ [] := by
      rcases Decidable.em (desc = none) with hdn | hdn
      · exact Or.inr (fun htn => hcase ⟨hdn, htn⟩)
      · cases desc with
        | none => exact absurd rfl hdn
        | some d => exact Or.inl rfl
    have hne : headerLines desc tools ≠ [] := by
      unfold headerLines
      cases hdc : desc with
      | some d => simp
      | none =>
        rcases hcond with hcond | hcond
        · rw [hdc] at hcond; cases hcond
        · rw [if_neg hcond]
          simp
    rw [savedContent_header desc tools content hcond]
    refine ⟨some ⟨(if tools = [] then none else some tools), desc⟩,
      (if content = "" then "" else "\n" ++ content), ?_, rfl, ?_, ?_⟩
    · exact parse_saved_header (headerLines desc tools) _ content hne
        (headerLines_props desc tools hd ht) hc1 hc2
        (parseYaml_header desc tools
          (fun d hdd => ⟨(hd d hdd).2.2.1, (hd d hdd).2.2.2⟩)
          (fun t hmt => ⟨(ht t hmt).2.2.1, (ht t hmt).2.2.2⟩))
    · show (if tools = [] then none else some tools).getD [] = tools
      by_cases htl : tools = []
      · rw [if_pos htl, htl]; rfl
      · rw [if_neg htl]; rfl
    · rw [if_neg hcase]

/-- C1 (counterexample): saving a command with a description and body
"hello" and reloading it (as the save operation itself does) yields a
record whose body text is "\nhello", not the saved body "hello": the blank
separator line after the header joins into the body on reload. -/
theorem c1_counterexample :
    (slash_command_save [] "user" "n" none "hello" (some "d") [] none
        (some ["h"])).1.map (fun cmd => cmd.content) = .ok "\nhello"
    ∧ ("\nhello" : String) ≠ "hello" := by
  constructor
  · decide
  · decide

/-- C1 (amended): for well-behaved single-line metadata (descriptions and
tool names without newlines, carriage returns, surrounding whitespace, and
non-empty), a body without carriage returns, no trailing newline, and a
body whose first line is not "---" when no header is emitted, saving a
command and immediately reloading it (which the save operation does)
reproduces the description and the tool list exactly, but the body text is
reproduced exactly only when no header is emitted: when a description or a
non-empty tool list is present, the reloaded body is "\n" ++ body (or ""
for an empty body) — the blank separator line joins into the body. -/
theorem c1_amended_roundtrip (es : FS) (scope name : String)
    (ns : Option String) (content : String) (desc : Option String)
    (tools : List String) (pp hm : Option (List String))
    (cmd : SlashCommand) (es2 : FS)
    (hd : ∀ d, desc = some d → '\n' ∉ d.data ∧ '\r' ∉ d.data ∧
      chTrim d.data = d.data ∧ d ≠ "")
    (ht : ∀ t ∈ tools, '\n' ∉ t.data ∧ '\r' ∉ t.data ∧
      chTrim t.data = t.data ∧ t ≠ "")
    (hc1 : content.data.getLast? ≠ some '\n') (hc2 : '\r' ∉ content.data)
    (hplain : desc = none → tools = [] →
      (rustLines content).head? ≠ some "---")
    (h : slash_command_save es scope name ns content desc tools pp hm
      = (.ok cmd, es2)) :
    cmd.description = desc ∧ cmd.allowed_tools = tools ∧
    cmd.content = (if desc = none ∧ tools = [] then content
      else if content = "" then "" else "\n" ++ content) := by
  obtain ⟨fm0, body0, hparse, hdesc0, htools0, hbody0⟩ :=
    parse_written desc tools content hd ht hc1 hc2 hplain
  simp only [slash_command_save] at h
  by_cases hn : name = ""
  · rw [if_pos hn] at h
    simp at h
  rw [if_neg hn] at h
  by_cases hs : scope = "project" ∨ scope = "user"
  swap
  · rw [if_pos hs] at h
    simp at h
  rw [if_neg (not_not_intro hs)] at h
  cases hB : resolveBaseDir scope pp hm with
  | error e =>
    simp only [hB] at h
    simp at h
  | ok base_dir =>
    simp only [hB] at h
    cases hCD : createDirAll es (base_dir ++ namespaceSegs ns) with
    | none =>
      simp only [hCD] at h
      simp at h
    | some es1 =>
      simp only [hCD] at h
      cases hW : writeFile es1 ((base_dir ++ namespaceSegs ns)
          ++ [name ++ ".md"]) (savedContent desc tools content) with
      | none =>
        simp only [hW] at h
        simp at h
      | some es3 =>
        simp only [hW] at h
        cases hL : load_command_from_file es3 ((base_dir ++ namespaceSegs ns)
            ++ [name ++ ".md"]) base_dir scope with
        | error e =>
          simp only [hL] at h
          simp at h
        | ok cmd1 =>
          simp only [hL] at h
          have hcmd : cmd1 = cmd := by
            have := congrArg Prod.fst h
            simpa using this
          subst hcmd
          have hread := writeFile_read _ es1 es3 _ hW
          have hsb : stripBase base_dir ((base_dir ++ namespaceSegs ns)
              ++ [name ++ ".md"])
              = some (namespaceSegs ns ++ [name ++ ".md"]) := by
            rw [List.append_assoc]
            exact stripBase_append _ _
          obtain ⟨nm, ns1, hext⟩ := extract_ok_of_under_root hsb
          have hloadeq := @load_eq _ _ _ scope _ _ _ _ _ hread hparse hext
          simp only [hL] at hloadeq
          have hfields := (Except.ok.injEq _ _).mp hloadeq
          refine ⟨?_, ?_, ?_⟩
          · rw [hfields]
            exact hdesc0
          · rw [hfields]
            exact htools0
          · rw [hfields]
            exact hbody0

theorem c1_witness :
    (⟨"user--h-.claude-commands-n.md", "n", "/n", "user", none,
        "/h/.claude/commands/n.md", "\nhello", some "d", ["t"], false, false,
        false⟩ : SlashCommand).description = some "d"
    ∧ (⟨"user--h-.claude-commands-n.md", "n", "/n", "user", none,
        "/h/.claude/commands/n.md", "\nhello", some "d", ["t"], false, false,
        false⟩ : SlashCommand).allowed_tools = ["t"]
    ∧ (⟨"user--h-.claude-commands-n.md", "n", "/n", "user", none,
        "/h/.claude/commands/n.md", "\nhello", some "d", ["t"], false, false,
        false⟩ : SlashCommand).content
      = (if (some "d" : Option String) = none ∧ (["t"] : List String) = []
         then "hello" else if ("hello" : String) = "" then ""
         else "\n" ++ "hello") :=
  c1_amended_roundtrip [] "user" "n" none "hello" (some "d") ["t"] none
    (some ["h"])
    ⟨"user--h-.claude-commands-n.md", "n", "/n", "user", none,
      "/h/.claude/commands/n.md", "\nhello", some "d", ["t"], false, false,
      false⟩
    [.dir "h" [.dir ".claude" [.dir "commands"
      [.file "n.md" "---\ndescription: d\nallowed-tools:\n  - t\n---\n\nhello"]]]]
    (by intro d hdq; injection hdq with hde; subst hde; decide)
    (by decide)
    (by decide)
    (by decide)
    (fun hq _ => absurd hq (by decide))
    rfl
